import Mathlib

/-!
# Verification of the `hecs_engine` spatial resolver and renderer batching

This file is a shallow embedding, in Lean 4, of the core of the
`hecs_engine` repository:

* the spatial transform resolver
  (`engine/src/spatial.rs`: `process_global_transform`,
  `process_transform_hierarchy`, `cascade_transform_x`),
* the per-pipeline instance batchers
  (`pipelines/src/texture_renderer.rs` and
  `pipelines/src/model_renderer.rs`, `prep`/`render`),
* the frame orchestration
  (`engine/src/lib.rs` `OuterState::tick` and
  `renderer/src/lib.rs` `RendererState::tick`, `add_pipeline`).

Entities are modelled as natural numbers.  A hecs `World` is modelled,
component type by component type, as association lists from entity id to
component value; hecs guarantees at most one component instance of a
given type per entity, which appears below as `Nodup` hypotheses on the
key lists.  The recursive hierarchy cascade (which in Rust recurses
without any guard) is embedded with an explicit fuel parameter that
bounds the recursion depth; running out of fuel returns `none`, so the
Rust function fails to terminate exactly when every fuel bound is
exhausted.

The affine carrier is kept abstract (`A` with a `Mul` composition,
matching `glam::Affine3A` and its `*=`), and instantiated for concrete
witnesses with an exact 3×3-matrix-plus-translation algebra over `Int`
(floating point rounding is out of scope; the spec's concrete examples
are integral translations, for which float arithmetic is exact).
-/

namespace HecsVerify

/-! ## Exact affine algebra (witness carrier)

The `common` crate of the repository (holding `Transform`,
`GlobalTransform` and `Transform::to_affine`) is not part of the
sources; only its users are.  The types below are modelled from the
spec: a `Transform` is a local pose (translation, rotation, scale), and
`to_affine` produces the composed affine map, carried here exactly over
`Int` as a 3×3 linear part plus a translation vector.  Composition
matches `glam`: `(f * g) p = f (g p)`. -/

structure V3 where
  x : Int
  y : Int
  z : Int
deriving DecidableEq, Repr

def V3.add (a b : V3) : V3 :=
  ⟨a.x + b.x, a.y + b.y, a.z + b.z⟩

structure M3 where
  r0 : V3
  r1 : V3
  r2 : V3
deriving DecidableEq, Repr

def mvMul (m : M3) (v : V3) : V3 :=
  ⟨m.r0.x * v.x + m.r0.y * v.y + m.r0.z * v.z,
   m.r1.x * v.x + m.r1.y * v.y + m.r1.z * v.z,
   m.r2.x * v.x + m.r2.y * v.y + m.r2.z * v.z⟩

def mmMul (m n : M3) : M3 :=
  ⟨⟨m.r0.x * n.r0.x + m.r0.y * n.r1.x + m.r0.z * n.r2.x,
    m.r0.x * n.r0.y + m.r0.y * n.r1.y + m.r0.z * n.r2.y,
    m.r0.x * n.r0.z + m.r0.y * n.r1.z + m.r0.z * n.r2.z⟩,
   ⟨m.r1.x * n.r0.x + m.r1.y * n.r1.x + m.r1.z * n.r2.x,
    m.r1.x * n.r0.y + m.r1.y * n.r1.y + m.r1.z * n.r2.y,
    m.r1.x * n.r0.z + m.r1.y * n.r1.z + m.r1.z * n.r2.z⟩,
   ⟨m.r2.x * n.r0.x + m.r2.y * n.r1.x + m.r2.z * n.r2.x,
    m.r2.x * n.r0.y + m.r2.y * n.r1.y + m.r2.z * n.r2.y,
    m.r2.x * n.r0.z + m.r2.y * n.r1.z + m.r2.z * n.r2.z⟩⟩

def idM3 : M3 :=
  ⟨⟨1, 0, 0⟩, ⟨0, 1, 0⟩, ⟨0, 0, 1⟩⟩

/-- An affine map: linear part plus translation, exact over `Int`. -/
structure Aff where
  linear : M3
  translation : V3
deriving DecidableEq, Repr

/-- Affine composition, `(f * g) p = f (g p)`: the model of
`glam::Affine3A` multiplication used by `cascade_transform_x` via
`transform *= local.transform.to_affine()`. -/
instance : Mul Aff :=
  ⟨fun f g => ⟨mmMul f.linear g.linear, V3.add (mvMul f.linear g.translation) f.translation⟩⟩

def affId : Aff :=
  ⟨idM3, ⟨0, 0, 0⟩⟩

/-- Pure translation. -/
def translate (x y z : Int) : Aff :=
  ⟨idM3, ⟨x, y, z⟩⟩

def scaleM (s : V3) : M3 :=
  ⟨⟨s.x, 0, 0⟩, ⟨0, s.y, 0⟩, ⟨0, 0, s.z⟩⟩

/-- Modelled from the spec: the missing `common` crate's `Transform`
component — a per-entity local pose "(translation, rotation, scale)"
(spec §3).  The rotation is carried as its 3×3 matrix. -/
structure Transform where
  translation : V3
  rotation : M3
  scale : V3
deriving DecidableEq, Repr

/-- Modelled from the spec: `Transform::to_affine` of the missing
`common` crate — "the affine form of Transform", the standard
translation∘rotation∘scale composite. -/
def Transform.to_affine (t : Transform) : Aff :=
  ⟨mmMul t.rotation (scaleM t.scale), t.translation⟩

/-- The identity pose. -/
def Transform.IDENTITY : Transform :=
  ⟨⟨0, 0, 0⟩, idM3, ⟨1, 1, 1⟩⟩

/-- A pure-translation pose. -/
def Transform.fromTranslation (x y z : Int) : Transform :=
  ⟨⟨x, y, z⟩, idM3, ⟨1, 1, 1⟩⟩

/-! ## Association-list worlds -/

/-- Component lookup by entity id (hecs `World::get`): first entry whose
key matches. -/
def lookupE {β : Type} (k : Nat) : List (Nat × β) → Option β
  | [] => none
  | p :: rest => if p.1 = k then some p.2 else lookupE k rest

/-- In-place component write (hecs `World::get::<&mut _>` followed by an
assignment): every entry for the entity is overwritten, others kept. -/
def setG {β : Type} (g : List (Nat × β)) (c : Nat) (v : β) : List (Nat × β) :=
  g.map fun p => if p.1 = c then (p.1, v) else p

theorem lookupE_eq_none {β : Type} {k : Nat} {l : List (Nat × β)} :
    lookupE k l = none ↔ k ∉ l.map (·.1) := by
  induction l with
  | nil => simp [lookupE]
  | cons p rest ih =>
    by_cases h : p.1 = k <;> simp [lookupE, h, ih]
    · omega

theorem lookupE_isSome {β : Type} {k : Nat} {l : List (Nat × β)} :
    (lookupE k l).isSome = true ↔ k ∈ l.map (·.1) := by
  induction l with
  | nil => simp [lookupE]
  | cons p rest ih =>
    by_cases h : p.1 = k <;> simp [lookupE, h, ih]
    · omega

theorem lookupE_mem {β : Type} {k : Nat} {l : List (Nat × β)} {v : β}
    (h : lookupE k l = some v) : (k, v) ∈ l := by
  induction l with
  | nil => simp [lookupE] at h
  | cons p rest ih =>
    obtain ⟨a, b⟩ := p
    by_cases hp : a = k
    · subst hp
      simp only [lookupE, if_pos, Option.some.injEq] at h
      subst h
      exact List.mem_cons_self _ _
    · simp only [lookupE, hp, if_false] at h
      exact List.mem_cons_of_mem _ (ih h)

theorem lookupE_of_mem_nodup {β : Type} {k : Nat} {l : List (Nat × β)} {v : β}
    (nd : (l.map (·.1)).Nodup) (h : (k, v) ∈ l) : lookupE k l = some v := by
  induction l with
  | nil => simp at h
  | cons p rest ih =>
    simp only [List.map_cons, List.nodup_cons] at nd
    rcases List.mem_cons.1 h with h1 | h1
    · subst h1
      simp [lookupE]
    · have hk : k ∈ rest.map (·.1) := List.mem_map.2 ⟨(k, v), h1, rfl⟩
      have hne : p.1 ≠ k := fun he => nd.1 (he ▸ hk)
      simp [lookupE, hne, ih nd.2 h1]

theorem lookupE_setG_ne {β : Type} {g : List (Nat × β)} {c k : Nat} {v : β}
    (h : k ≠ c) : lookupE k (setG g c v) = lookupE k g := by
  induction g with
  | nil => rfl
  | cons p rest ih =>
    obtain ⟨a, b⟩ := p
    show lookupE k ((if a = c then (a, v) else (a, b)) :: setG rest c v) = _
    by_cases hp : a = c
    · rw [if_pos hp]
      show (if a = k then some v else lookupE k (setG rest c v)) =
        (if a = k then some b else lookupE k rest)
      have hak : ¬ a = k := by omega
      rw [if_neg hak, if_neg hak, ih]
    · rw [if_neg hp]
      show (if a = k then some b else lookupE k (setG rest c v)) =
        (if a = k then some b else lookupE k rest)
      by_cases hk : a = k
      · rw [if_pos hk, if_pos hk]
      · rw [if_neg hk, if_neg hk, ih]

theorem lookupE_setG_self {β : Type} {g : List (Nat × β)} {c : Nat} {v : β} :
    lookupE c (setG g c v) = (lookupE c g).map (fun _ => v) := by
  induction g with
  | nil => rfl
  | cons p rest ih =>
    obtain ⟨a, b⟩ := p
    show lookupE c ((if a = c then (a, v) else (a, b)) :: setG rest c v) =
      ((if a = c then some b else lookupE c rest).map fun _ => v)
    by_cases hp : a = c
    · rw [if_pos hp]
      show (if a = c then some v else lookupE c (setG rest c v)) = _
      rw [if_pos hp, if_pos hp]
      rfl
    · rw [if_neg hp]
      show (if a = c then some b else lookupE c (setG rest c v)) = _
      rw [if_neg hp, if_neg hp]
      exact ih

theorem keys_setG {β : Type} {g : List (Nat × β)} {c : Nat} {v : β} :
    (setG g c v).map (·.1) = g.map (·.1) := by
  induction g with
  | nil => simp [setG]
  | cons p rest ih =>
    by_cases hp : p.1 = c <;> simp [setG, hp] at * <;> exact ih

/-! ## The spatial resolver (`engine/src/spatial.rs`)

The world is carried as three association lists:
* `tr  : List (Nat × T)`        — `Transform` components,
* `loc : List (Nat × Nat × T)`  — `LocalTransform { parent, transform }`
  components (entity ↦ (parent, local transform)),
* `g   : List (Nat × A)`        — `GlobalTransform` components.

`T` is the `Transform` type, `A` the affine carrier
(`glam::Affine3A`), `τ : T → A` is `Transform::to_affine`, and `Mul A`
is affine composition. -/

section Spatial

variable {T A : Type} (τ : T → A) [Mul A]

/-- Entities that carry a `LocalTransform` (the `entries` set of
`process_transform_hierarchy`). -/
def entriesOf (loc : List (Nat × Nat × T)) : List Nat :=
  loc.map (·.1)

/-- The child lists of the rebuilt hierarchy: `links` maps a parent to
the entities whose `LocalTransform.parent` is that parent, in query
order (the fold in `process_transform_hierarchy` pushes children in
iteration order). -/
def linksOf (loc : List (Nat × Nat × T)) (p : Nat) : List Nat :=
  (loc.filter (fun e => e.2.1 == p)).map (·.1)

/-- The roots: keys of the parent map that are not themselves entries
(have no `LocalTransform`).  `HashMap` key iteration order is
unspecified in Rust; the embedding fixes first-occurrence order, which
is sound because distinct root subtrees are disjoint (each entity has at
most one parent). -/
def rootsOf (loc : List (Nat × Nat × T)) : List Nat :=
  (loc.map (·.2.1)).dedup.filter (fun p => decide (¬ p ∈ loc.map (·.1)))

/-- The in-body transform update of `cascade_transform_x`:
`if let Ok(local) = world.get::<&LocalTransform>(current) { transform *= local.transform.to_affine() }`. -/
def stepT (loc : List (Nat × Nat × T)) (c : Nat) (t : A) : A :=
  match lookupE c loc with
  | some pt => t * τ pt.2
  | none => t

/-- `cascade_transform_x`: starting at entity `c` with incoming affine
`t`, compose the entity's own `LocalTransform` offset, write the result
into its `GlobalTransform` (when it has one), then recurse into its
children.  The Rust recursion is unguarded; `fuel` bounds the recursion
depth and `none` models non-termination (every call strictly below the
current one runs with one unit of fuel less). -/
def cascade (loc : List (Nat × Nat × T)) :
    Nat → Nat → A → List (Nat × A) → Option (List (Nat × A))
  | 0, _, _, _ => none
  | fuel + 1, c, t, g =>
    (linksOf loc c).foldl
      (fun acc child => acc.bind (fun gg => cascade loc fuel child (stepT τ loc c t) gg))
      (some (setG g c (stepT τ loc c t)))

/-- One level of child cascades, all from the same incoming transform
(the per-root child loop, and the recursive child loop inside
`cascade_transform_x`). -/
def cascadeChildren (loc : List (Nat × Nat × T)) (fuel : Nat) (cs : List Nat) (t : A)
    (og : Option (List (Nat × A))) : Option (List (Nat × A)) :=
  cs.foldl (fun acc child => acc.bind (fun gg => cascade τ loc fuel child t gg)) og

theorem cascade_succ (loc : List (Nat × Nat × T)) (fuel : Nat) (c : Nat) (t : A)
    (g : List (Nat × A)) :
    cascade τ loc (fuel + 1) c t g =
      cascadeChildren τ loc fuel (linksOf loc c) (stepT τ loc c t)
        (some (setG g c (stepT τ loc c t))) := rfl

/-- The per-root loop of `process_transform_hierarchy`: read the root's
current `GlobalTransform`; on failure skip the root (`Err(_) => return`),
otherwise cascade into each of its children. -/
def processRoots (loc : List (Nat × Nat × T)) (fuel : Nat) :
    List Nat → List (Nat × A) → Option (List (Nat × A))
  | [], g => some g
  | r :: rs, g =>
    match lookupE r g with
    | none => processRoots loc fuel rs g
    | some gr =>
      match cascadeChildren τ loc fuel (linksOf loc r) gr (some g) with
      | none => none
      | some g' => processRoots loc fuel rs g'

/-- `process_transform_hierarchy`: rebuild the hierarchy from all
`LocalTransform` components and cascade from every root. -/
def process_transform_hierarchy (loc : List (Nat × Nat × T)) (fuel : Nat)
    (g : List (Nat × A)) : Option (List (Nat × A)) :=
  processRoots τ loc fuel (rootsOf loc) g

/-- `process_global_transform` (the flat pass): for every entity holding
both a `Transform` and a `GlobalTransform`, set
`GlobalTransform := to_affine(Transform)`. -/
def process_global_transform (tr : List (Nat × T)) (g : List (Nat × A)) :
    List (Nat × A) :=
  g.map fun p => match lookupE p.1 tr with
    | some t => (p.1, τ t)
    | none => p

/-- The two passes in the order `OuterState::tick` runs them
(`engine/src/lib.rs` lines 268–269): flat pass, then hierarchy pass. -/
def resolve (tr : List (Nat × T)) (loc : List (Nat × Nat × T)) (fuel : Nat)
    (g : List (Nat × A)) : Option (List (Nat × A)) :=
  process_transform_hierarchy τ loc fuel (process_global_transform τ tr g)

/-! ### The hierarchy graph: links, parents, reachability -/

/-- One parent→child edge of the rebuilt hierarchy. -/
def StepR (loc : List (Nat × Nat × T)) (a b : Nat) : Prop :=
  b ∈ linksOf loc a

/-- Reachability along parent→child edges; the set of entities a
cascade starting at `a` can visit is exactly `{ b | Reach loc a b }`. -/
def Reach (loc : List (Nat × Nat × T)) : Nat → Nat → Prop :=
  Relation.ReflTransGen (StepR loc)

theorem mem_linksOf {loc : List (Nat × Nat × T)} {p b : Nat} :
    b ∈ linksOf loc p ↔ ∃ o, (b, (p, o)) ∈ loc := by
  simp only [linksOf, List.mem_map, List.mem_filter, beq_iff_eq]
  constructor
  · rintro ⟨⟨e, pe, oe⟩, ⟨he, hp⟩, hb⟩
    cases hb
    cases hp
    exact ⟨oe, he⟩
  · rintro ⟨o, ho⟩
    exact ⟨(b, (p, o)), ⟨ho, rfl⟩, rfl⟩

theorem linksOf_subset_keys {loc : List (Nat × Nat × T)} {p b : Nat}
    (h : b ∈ linksOf loc p) : b ∈ loc.map (·.1) := by
  obtain ⟨o, ho⟩ := mem_linksOf.1 h
  exact List.mem_map.2 ⟨(b, (p, o)), ho, rfl⟩

theorem linksOf_lookup {loc : List (Nat × Nat × T)} {p b : Nat}
    (nd : (loc.map (·.1)).Nodup) (h : b ∈ linksOf loc p) :
    ∃ o, lookupE b loc = some (p, o) := by
  obtain ⟨o, ho⟩ := mem_linksOf.1 h
  exact ⟨o, lookupE_of_mem_nodup nd ho⟩

theorem lookup_linksOf {loc : List (Nat × Nat × T)} {p b : Nat} {o : T}
    (h : lookupE b loc = some (p, o)) : b ∈ linksOf loc p :=
  mem_linksOf.2 ⟨o, lookupE_mem h⟩

theorem linksOf_parent_eq {loc : List (Nat × Nat × T)} {p1 p2 b : Nat}
    (nd : (loc.map (·.1)).Nodup) (h1 : b ∈ linksOf loc p1) (h2 : b ∈ linksOf loc p2) :
    p1 = p2 := by
  obtain ⟨o1, e1⟩ := linksOf_lookup nd h1
  obtain ⟨o2, e2⟩ := linksOf_lookup nd h2
  have : (p1, o1) = (p2, o2) := by rw [e1] at e2; exact Option.some.inj e2
  exact congrArg Prod.fst this

theorem linksOf_nodup {loc : List (Nat × Nat × T)} {p : Nat}
    (nd : (loc.map (·.1)).Nodup) : (linksOf loc p).Nodup := by
  have hsub : ((loc.filter (fun e => e.2.1 == p)).map (·.1)).Sublist (loc.map (·.1)) :=
    (List.filter_sublist loc).map (·.1)
  exact hsub.nodup nd

/-- Peeling the last edge of a reachability path: everything reachable
is either the start itself or a child of something reachable. -/
theorem reach_cases {loc : List (Nat × Nat × T)} {s y : Nat}
    (h : Reach loc s y) : y = s ∨ ∃ b, Reach loc s b ∧ y ∈ linksOf loc b :=
  Relation.ReflTransGen.cases_tail h

theorem reach_keys {loc : List (Nat × Nat × T)} {s y : Nat}
    (h : Reach loc s y) : y = s ∨ y ∈ loc.map (·.1) := by
  rcases reach_cases h with h1 | ⟨b, _, hb⟩
  · exact Or.inl h1
  · exact Or.inr (linksOf_subset_keys hb)

/-- A non-entry (no `LocalTransform`, e.g. a root) is reachable only
from itself. -/
theorem reach_of_no_local {loc : List (Nat × Nat × T)} {s y : Nat}
    (hy : lookupE y loc = none) (h : Reach loc s y) : s = y := by
  rcases reach_keys h with h1 | h1
  · exact h1.symm
  · exact absurd h1 (lookupE_eq_none.1 hy)

/-! ### Frame lemmas: a cascade only writes reachable entities -/

theorem cascadeChildren_none (loc : List (Nat × Nat × T)) (fuel : Nat) (cs : List Nat)
    (t : A) : cascadeChildren τ loc fuel cs t none = none := by
  induction cs with
  | nil => rfl
  | cons c cs ih => simpa [cascadeChildren, List.foldl] using ih

theorem cascadeChildren_cons (loc : List (Nat × Nat × T)) (fuel : Nat) (c : Nat)
    (cs : List Nat) (t : A) (g : List (Nat × A)) :
    cascadeChildren τ loc fuel (c :: cs) t (some g) =
      match cascade τ loc fuel c t g with
      | none => none
      | some g' => cascadeChildren τ loc fuel cs t (some g') := by
  cases h : cascade τ loc fuel c t g with
  | none => simpa [cascadeChildren, List.foldl, h] using cascadeChildren_none τ loc fuel cs t
  | some g' => simp [cascadeChildren, List.foldl, h]

theorem cascadeChildren_append (loc : List (Nat × Nat × T)) (fuel : Nat)
    (xs ys : List Nat) (t : A) (og : Option (List (Nat × A))) :
    cascadeChildren τ loc fuel (xs ++ ys) t og =
      cascadeChildren τ loc fuel ys t (cascadeChildren τ loc fuel xs t og) := by
  simp [cascadeChildren, List.foldl_append]

/-- List-level preservation, assuming cascade-level preservation at the
same fuel. -/
theorem pres_children_of (loc : List (Nat × Nat × T)) (fuel : Nat)
    (IH : ∀ c t g g', cascade τ loc fuel c t g = some g' →
      ∀ y, ¬ Reach loc c y → lookupE y g' = lookupE y g) :
    ∀ cs t g g', cascadeChildren τ loc fuel cs t (some g) = some g' →
      ∀ y, (∀ c ∈ cs, ¬ Reach loc c y) → lookupE y g' = lookupE y g := by
  intro cs
  induction cs with
  | nil =>
    intro t g g' h y _
    simp only [cascadeChildren, List.foldl] at h
    cases h
    rfl
  | cons c cs ih =>
    intro t g g' h y hy
    rw [cascadeChildren_cons] at h
    cases hc : cascade τ loc fuel c t g with
    | none => rw [hc] at h; cases h
    | some g1 =>
      rw [hc] at h
      have e1 := IH c t g g1 hc y (hy c (List.mem_cons_self _ _))
      have e2 := ih t g1 g' h y (fun c' hc' => hy c' (List.mem_cons_of_mem _ hc'))
      rw [e2, e1]

/-- A successful cascade from `c` leaves the `GlobalTransform` of every
entity not reachable from `c` untouched. -/
theorem pres_cascade (loc : List (Nat × Nat × T)) :
    ∀ fuel c t g g', cascade τ loc fuel c t g = some g' →
      ∀ y, ¬ Reach loc c y → lookupE y g' = lookupE y g := by
  intro fuel
  induction fuel with
  | zero => intro c t g g' h; cases h
  | succ f ihf =>
    intro c t g g' h y hy
    rw [cascade_succ] at h
    have hyc : y ≠ c := fun he => hy (he ▸ Relation.ReflTransGen.refl)
    have h2 : ∀ ch ∈ linksOf loc c, ¬ Reach loc ch y := by
      intro ch hch hr
      exact hy (Relation.ReflTransGen.head hch hr)
    have e := pres_children_of τ loc f ihf _ _ _ _ h y h2
    rw [e, lookupE_setG_ne hyc]

/-- List-level key preservation. -/
theorem keys_children_of (loc : List (Nat × Nat × T)) (fuel : Nat)
    (IH : ∀ c t g g', cascade τ loc fuel c t g = some g' →
      g'.map (·.1) = g.map (·.1)) :
    ∀ cs t g g', cascadeChildren τ loc fuel cs t (some g) = some g' →
      g'.map (·.1) = g.map (·.1) := by
  intro cs
  induction cs with
  | nil =>
    intro t g g' h
    simp only [cascadeChildren, List.foldl] at h
    cases h
    rfl
  | cons c cs ih =>
    intro t g g' h
    rw [cascadeChildren_cons] at h
    cases hc : cascade τ loc fuel c t g with
    | none => rw [hc] at h; cases h
    | some g1 =>
      rw [hc] at h
      rw [ih t g1 g' h, IH c t g g1 hc]

/-- A successful cascade does not change the set of entities that carry
a `GlobalTransform` (writes are in place). -/
theorem keys_cascade (loc : List (Nat × Nat × T)) :
    ∀ fuel c t g g', cascade τ loc fuel c t g = some g' →
      g'.map (·.1) = g.map (·.1) := by
  intro fuel
  induction fuel with
  | zero => intro c t g g' h; cases h
  | succ f ihf =>
    intro c t g g' h
    rw [cascade_succ] at h
    rw [keys_children_of τ loc f ihf _ _ _ _ h, keys_setG]

/-! ### Termination: every descending path from a root is short

Each entity carries at most one `LocalTransform` (hecs invariant: one
component instance per entity), so each entity has at most one parent.
A descending path from a node `r` with no `LocalTransform` can therefore
never revisit a node: if it did, walking the two occurrences backwards
through the (unique) parents would identify `r` with an entity that has
a parent.  In particular members of a parent cycle are never reachable
from any root, and the cascade always terminates — cycles are silently
skipped, not recursed into. -/

theorem chain_subset_keys {loc : List (Nat × Nat × T)} :
    ∀ {r : Nat} {p : List Nat}, List.Chain (StepR loc) r p →
      ∀ y ∈ p, y ∈ loc.map (·.1) := by
  intro r p
  induction p generalizing r with
  | nil => intro _ y hy; cases hy
  | cons c p ih =>
    intro h y hy
    rcases List.chain_cons.1 h with ⟨hrc, hcp⟩
    rcases List.mem_cons.1 hy with h1 | h1
    · exact h1 ▸ linksOf_subset_keys hrc
    · exact ih hcp y h1

theorem chain_nodup {loc : List (Nat × Nat × T)} {r : Nat} {p : List Nat}
    (nd : (loc.map (·.1)).Nodup) (rt : lookupE r loc = none)
    (hc : List.Chain (StepR loc) r p) : (r :: p).Nodup := by
  obtain ⟨h0, hs⟩ := List.chain_iff_get.1 hc
  have adj : ∀ j (hj : j + 1 < (r :: p).length),
      StepR loc ((r :: p).get ⟨j, by omega⟩) ((r :: p).get ⟨j + 1, hj⟩) := by
    intro j hj
    match j with
    | 0 =>
      have hp : 0 < p.length := by simpa using Nat.lt_of_succ_lt_succ hj
      exact h0 hp
    | Nat.succ i =>
      have hb : i < p.length - 1 := by
        simp only [List.length_cons] at hj
        omega
      exact hs i hb
  have key : ∀ n i j (hi : i < (r :: p).length) (hj : j < (r :: p).length),
      i = n → i < j → (r :: p).get ⟨i, hi⟩ = (r :: p).get ⟨j, hj⟩ → False := by
    intro n
    induction n using Nat.strong_induction_on with
    | _ n ihn =>
      intro i j hi hj hin hij heq
      match j, hj with
      | jj + 1, hj =>
        match i, hi with
        | 0, hi =>
          have hstep := adj jj hj
          have : (r :: p).get ⟨jj + 1, hj⟩ ∈ loc.map (·.1) :=
            linksOf_subset_keys hstep
          rw [← heq] at this
          exact absurd this (lookupE_eq_none.1 rt)
        | ii + 1, hi =>
          have s1 := adj ii hi
          have s2 := adj jj hj
          rw [heq] at s1
          have hpar := linksOf_parent_eq nd s1 s2
          exact ihn ii (by omega) ii jj (by omega) (by omega) rfl (by omega) hpar
  apply List.nodup_iff_injective_get.2
  intro a b heq
  rcases lt_trichotomy a.val b.val with h | h | h
  · exact absurd heq (fun he => key a.val a.val b.val a.isLt b.isLt rfl h he)
  · exact Fin.ext h
  · exact absurd heq.symm (fun he => key b.val b.val a.val b.isLt a.isLt rfl h he)

theorem chain_length_le {loc : List (Nat × Nat × T)} {r : Nat} {p : List Nat}
    (nd : (loc.map (·.1)).Nodup) (rt : lookupE r loc = none)
    (hc : List.Chain (StepR loc) r p) : p.length ≤ loc.length := by
  have hnd : (r :: p).Nodup := chain_nodup nd rt hc
  have hp : p.Nodup := (List.nodup_cons.1 hnd).2
  have hsub : p ⊆ loc.map (·.1) := fun y hy => chain_subset_keys hc y hy
  have hle := (List.subperm_of_subset hp hsub).length_le
  simpa using hle

theorem isSome_children_of (loc : List (Nat × Nat × T)) (fuel : Nat)
    (IH : ∀ c t g, (∀ p, List.Chain (StepR loc) c p → p.length < fuel) →
      (cascade τ loc fuel c t g).isSome = true) :
    ∀ cs t g, (∀ c ∈ cs, ∀ p, List.Chain (StepR loc) c p → p.length < fuel) →
      (cascadeChildren τ loc fuel cs t (some g)).isSome = true := by
  intro cs
  induction cs with
  | nil => intro t g _; rfl
  | cons c cs ih =>
    intro t g h
    rw [cascadeChildren_cons]
    have h1 := IH c t g (h c (List.mem_cons_self _ _))
    cases hc : cascade τ loc fuel c t g with
    | none => rw [hc] at h1; cases h1
    | some g1 => exact ih t g1 (fun c' hc' => h c' (List.mem_cons_of_mem _ hc'))

theorem isSome_cascade (loc : List (Nat × Nat × T)) :
    ∀ fuel c t g, (∀ p, List.Chain (StepR loc) c p → p.length < fuel) →
      (cascade τ loc fuel c t g).isSome = true := by
  intro fuel
  induction fuel with
  | zero =>
    intro c t g h
    have := h [] List.Chain.nil
    omega
  | succ f ihf =>
    intro c t g h
    rw [cascade_succ]
    apply isSome_children_of τ loc f ihf
    intro ch hch p hp
    have hchain : List.Chain (StepR loc) c (ch :: p) := List.Chain.cons hch hp
    have := h _ hchain
    simp only [List.length_cons] at this
    omega

theorem roots_no_local {loc : List (Nat × Nat × T)} :
    ∀ r ∈ rootsOf loc, lookupE r loc = none := by
  intro r hr
  simp only [rootsOf, List.mem_filter, decide_eq_true_eq] at hr
  exact lookupE_eq_none.2 hr.2

theorem rootsOf_nodup (loc : List (Nat × Nat × T)) : (rootsOf loc).Nodup :=
  (List.nodup_dedup _).filter _

theorem processRoots_isSome (loc : List (Nat × Nat × T))
    (nd : (loc.map (·.1)).Nodup) :
    ∀ rs (g : List (Nat × A)), (∀ r ∈ rs, lookupE r loc = none) →
      (processRoots τ loc (loc.length + 1) rs g).isSome = true := by
  intro rs
  induction rs with
  | nil => intro g _; rfl
  | cons r rs ih =>
    intro g h
    have hr := h r (List.mem_cons_self _ _)
    cases hg : lookupE r g with
    | none =>
      simpa [processRoots, hg] using ih g (fun x hx => h x (List.mem_cons_of_mem _ hx))
    | some gr =>
      have hch : (cascadeChildren τ loc (loc.length + 1) (linksOf loc r) gr
          (some g)).isSome = true := by
        apply isSome_children_of τ loc _ (isSome_cascade τ loc _)
        intro c hc p hp
        have hchain : List.Chain (StepR loc) r (c :: p) := List.Chain.cons hc hp
        have hlen := chain_length_le nd hr hchain
        simp only [List.length_cons] at hlen
        omega
      cases hcc : cascadeChildren τ loc (loc.length + 1) (linksOf loc r) gr (some g) with
      | none => rw [hcc] at hch; cases hch
      | some g' =>
        simpa [processRoots, hg, hcc] using
          ih g' (fun x hx => h x (List.mem_cons_of_mem _ hx))

/-- Termination of the hierarchy pass for every input, cyclic parent
graphs included, with fuel `loc.length + 1` (the recursion depth never
exceeds the number of entities carrying a `LocalTransform`).  The
`Nodup` hypothesis is the hecs guarantee that an entity carries at most
one `LocalTransform` component. -/
theorem process_transform_hierarchy_isSome (loc : List (Nat × Nat × T))
    (nd : (loc.map (·.1)).Nodup) (g : List (Nat × A)) :
    (process_transform_hierarchy τ loc (loc.length + 1) g).isSome = true :=
  processRoots_isSome τ loc nd (rootsOf loc) g roots_no_local

/-! ### Parent chains

`IsChain loc p ch` says that `ch = [(c₁,o₁),…,(cₖ,oₖ)]` is a descending
parent chain: `c₁`'s `LocalTransform` is `{parent := p, transform := o₁}`,
`c₂`'s parent is `c₁` with offset `o₂`, and so on. -/

def IsChain (loc : List (Nat × Nat × T)) : Nat → List (Nat × T) → Prop
  | _, [] => True
  | p, (c, o) :: rest => lookupE c loc = some (p, o) ∧ IsChain loc c rest

/-- The last entity of a chain hanging below `c` (or `c` itself for the
empty chain). -/
def lastKey : Nat → List (Nat × T) → Nat
  | c, [] => c
  | _, x :: xs => lastKey x.1 xs

/-- The affine accumulated along a chain starting from `t`:
`t * τ o₁ * … * τ oₖ` (left-to-right, as `cascade_transform_x`
accumulates with `transform *= offset.to_affine()`). -/
def chainProd (τ : T → A) [Mul A] (t : A) (ch : List (Nat × T)) : A :=
  ch.foldl (fun acc co => acc * τ co.2) t

theorem isChain_append {loc : List (Nat × Nat × T)} :
    ∀ {xs ys : List (Nat × T)} {r : Nat}, IsChain loc r (xs ++ ys) →
      IsChain loc (lastKey r xs) ys := by
  intro xs
  induction xs with
  | nil => intro ys r h; exact h
  | cons x xs ih =>
    intro ys r h
    obtain ⟨c, o⟩ := x
    exact ih h.2

theorem lastKey_append_single : ∀ (xs : List (Nat × T)) (r u : Nat) (ou : T),
    lastKey r (xs ++ [(u, ou)]) = u := by
  intro xs
  induction xs with
  | nil => intro r u ou; rfl
  | cons x xs ih => intro r u ou; exact ih x.1 u ou

theorem lastKey_mem : ∀ (ch : List (Nat × T)) (c : Nat),
    lastKey c ch ∈ c :: ch.map (·.1) := by
  intro ch
  induction ch with
  | nil => intro c; exact List.mem_cons_self _ _
  | cons x xs ih =>
    intro c
    exact List.mem_cons_of_mem _ (ih x.1)

/-- The chain-predecessor of a chain element really is its stored
parent. -/
theorem isChain_parent {loc : List (Nat × Nat × T)} {r : Nat} {pre rest : List (Nat × T)}
    {c : Nat} {oc : T} (h : IsChain loc r (pre ++ (c, oc) :: rest)) :
    lookupE c loc = some (lastKey r pre, oc) :=
  (isChain_append h).1

theorem isChain_to_listChain {loc : List (Nat × Nat × T)} :
    ∀ {ch : List (Nat × T)} {r : Nat}, IsChain loc r ch →
      List.Chain (StepR loc) r (ch.map (·.1)) := by
  intro ch
  induction ch with
  | nil => intro r _; exact List.Chain.nil
  | cons x xs ih =>
    intro r h
    obtain ⟨c, o⟩ := x
    exact List.Chain.cons (lookup_linksOf h.1) (ih h.2)

theorem isChain_nodup {loc : List (Nat × Nat × T)} {r : Nat} {ch : List (Nat × T)}
    (nd : (loc.map (·.1)).Nodup) (rt : lookupE r loc = none)
    (h : IsChain loc r ch) : (r :: ch.map (·.1)).Nodup :=
  chain_nodup nd rt (isChain_to_listChain h)

theorem isChain_subset_keys {loc : List (Nat × Nat × T)} {r : Nat} {ch : List (Nat × T)}
    (h : IsChain loc r ch) : ∀ y ∈ ch.map (·.1), y ∈ loc.map (·.1) :=
  chain_subset_keys (isChain_to_listChain h)

/-- Two decompositions of a key-`Nodup` association list at the same
key coincide. -/
theorem nodup_decomp_unique {β : Type} :
    ∀ {p₁ : List (Nat × β)} {p₂ t₁ t₂ : List (Nat × β)} {c : Nat} {x y : β},
      ((p₁ ++ (c, x) :: t₁).map (·.1)).Nodup →
      p₁ ++ (c, x) :: t₁ = p₂ ++ (c, y) :: t₂ →
      p₁ = p₂ ∧ x = y ∧ t₁ = t₂ := by
  intro p₁
  induction p₁ with
  | nil =>
    intro p₂ t₁ t₂ c x y nd h
    cases p₂ with
    | nil =>
      simp only [List.nil_append] at h
      have hd := List.head_eq_of_cons_eq h
      have hxy : x = y := congrArg Prod.snd hd
      exact ⟨rfl, hxy, List.tail_eq_of_cons_eq h⟩
    | cons q p₂ =>
      simp only [List.nil_append, List.cons_append] at h
      have ht : t₁ = p₂ ++ (c, y) :: t₂ := List.tail_eq_of_cons_eq h
      simp only [List.nil_append, List.map_cons, List.nodup_cons] at nd
      exfalso
      apply nd.1
      rw [ht]
      simp
  | cons q p₁ ih =>
    intro p₂ t₁ t₂ c x y nd h
    cases p₂ with
    | nil =>
      simp only [List.nil_append, List.cons_append] at h
      have hq : q = (c, y) := List.head_eq_of_cons_eq h
      have ht : p₁ ++ (c, x) :: t₁ = t₂ := List.tail_eq_of_cons_eq h
      simp only [List.cons_append, List.map_cons, List.nodup_cons] at nd
      exfalso
      apply nd.1
      rw [hq]
      simp
    | cons q' p₂ =>
      simp only [List.cons_append] at h
      have hq : q = q' := List.head_eq_of_cons_eq h
      have ht : p₁ ++ (c, x) :: t₁ = p₂ ++ (c, y) :: t₂ := List.tail_eq_of_cons_eq h
      simp only [List.cons_append, List.map_cons, List.nodup_cons] at nd
      obtain ⟨h1, h2, h3⟩ := ih nd.2 ht
      exact ⟨by rw [hq, h1], h2, h3⟩

/-- Whoever reaches a node with a unique stored parent either is that
node, or reaches the parent. -/
theorem reach_to_chain_head {loc : List (Nat × Nat × T)} {s c x : Nat} {o : T}
    (nd : (loc.map (·.1)).Nodup) (hc : lookupE c loc = some (s, o))
    (h : Reach loc x c) : x = c ∨ Reach loc x s := by
  rcases reach_cases h with h1 | ⟨b, hb, hcb⟩
  · exact Or.inl h1.symm
  · have hbs : b = s := linksOf_parent_eq nd hcb (lookup_linksOf hc)
    exact Or.inr (hbs ▸ hb)

/-- Upward closure: anything reaching a chain node is a chain node or
reaches the chain's start. -/
theorem chain_reach {loc : List (Nat × Nat × T)} (nd : (loc.map (·.1)).Nodup) :
    ∀ {ch : List (Nat × T)} {s : Nat}, IsChain loc s ch →
      ∀ y ∈ ch.map (·.1), ∀ x, Reach loc x y →
        x ∈ ch.map (·.1) ∨ Reach loc x s := by
  intro ch
  induction ch with
  | nil => intro s _ y hy; simp at hy
  | cons z rest ih =>
    intro s h y hy x hx
    obtain ⟨c, o⟩ := z
    simp only [List.map_cons, List.mem_cons] at hy
    rcases hy with rfl | hy
    · rcases reach_to_chain_head nd h.1 hx with rfl | hr
      · exact Or.inl (List.mem_cons_self _ _)
      · exact Or.inr hr
    · rcases ih h.2 y hy x hx with hm | hr
      · exact Or.inl (List.mem_cons_of_mem _ hm)
      · rcases reach_to_chain_head nd h.1 hr with rfl | hr2
        · exact Or.inl (List.mem_cons_self _ _)
        · exact Or.inr hr2

/-- A chain node's child that is itself a chain node must be the very
next chain node. -/
theorem child_in_chain {loc : List (Nat × Nat × T)} (nd : (loc.map (·.1)).Nodup)
    {r : Nat} (rt : lookupE r loc = none)
    {full pre rest : List (Nat × T)} {c s : Nat} {oc os : T}
    (hch : IsChain loc r full) (hdec : full = pre ++ (c, oc) :: rest)
    (hs : s ∈ full.map (·.1)) (hlk : lookupE s loc = some (c, os)) :
    ∃ vs, rest = (s, os) :: vs := by
  obtain ⟨o'', hmem⟩ : ∃ o'', (s, o'') ∈ full := by
    obtain ⟨⟨s', o''⟩, hm, he⟩ := List.mem_map.1 hs
    cases he
    exact ⟨o'', hm⟩
  obtain ⟨us, vs', hdec2⟩ := List.append_of_mem hmem
  have hpar : lookupE s loc = some (lastKey r us, o'') := isChain_parent (hdec2 ▸ hch)
  rw [hlk] at hpar
  have hpair := Option.some.inj hpar
  have hcu : c = lastKey r us := congrArg Prod.fst hpair
  have hoo : os = o'' := congrArg Prod.snd hpair
  subst hoo
  rcases List.eq_nil_or_concat us with rfl | ⟨us', ⟨u, ou⟩, rfl⟩
  · exfalso
    have hcl : lookupE c loc = some (lastKey r pre, oc) := isChain_parent (hdec ▸ hch)
    have hcr : c = r := hcu
    rw [hcr, rt] at hcl
    cases hcl
  · simp only [List.concat_eq_append] at hcu hdec2
    rw [lastKey_append_single] at hcu
    subst hcu
    have hdec2' : full = us' ++ (c, ou) :: ((s, os) :: vs') := by
      simpa [List.append_assoc] using hdec2
    have hnd : (full.map (·.1)).Nodup := (List.nodup_cons.1 (isChain_nodup nd rt hch)).2
    rw [hdec] at hnd
    obtain ⟨_, _, h3⟩ := nodup_decomp_unique hnd (hdec.symm.trans hdec2')
    exact ⟨vs', h3⟩

/-- A root's child that is a chain node must be the chain's first
node. -/
theorem child_of_root_in_chain {loc : List (Nat × Nat × T)} (nd : (loc.map (·.1)).Nodup)
    {r : Nat} (rt : lookupE r loc = none) {full : List (Nat × T)} {s : Nat} {os : T}
    (hch : IsChain loc r full) (hs : s ∈ full.map (·.1))
    (hlk : lookupE s loc = some (r, os)) :
    ∃ vs, full = (s, os) :: vs := by
  obtain ⟨o'', hmem⟩ : ∃ o'', (s, o'') ∈ full := by
    obtain ⟨⟨s', o''⟩, hm, he⟩ := List.mem_map.1 hs
    cases he
    exact ⟨o'', hm⟩
  obtain ⟨us, vs', hdec2⟩ := List.append_of_mem hmem
  have hpar : lookupE s loc = some (lastKey r us, o'') := isChain_parent (hdec2 ▸ hch)
  rw [hlk] at hpar
  have hpair := Option.some.inj hpar
  have hru : r = lastKey r us := congrArg Prod.fst hpair
  have hoo : os = o'' := congrArg Prod.snd hpair
  subst hoo
  rcases List.eq_nil_or_concat us with rfl | ⟨us', ⟨u, ou⟩, rfl⟩
  · exact ⟨vs', by simpa using hdec2⟩
  · exfalso
    simp only [List.concat_eq_append] at hru hdec2
    rw [lastKey_append_single] at hru
    have hmem2 : r ∈ full.map (·.1) := by
      rw [hdec2, hru]
      simp
    have : r ∈ loc.map (·.1) := isChain_subset_keys hch r hmem2
    exact absurd this (lookupE_eq_none.1 rt)

/-- The heart of the hierarchy correctness: a successful cascade into a
chain node `c` (whose chain continues with `rest`) writes the last node
of the chain with the incoming transform composed with every offset
along the chain, and nothing later in the cascade overwrites it. -/
theorem cascade_chain (loc : List (Nat × Nat × T)) (nd : (loc.map (·.1)).Nodup)
    (r : Nat) (rt : lookupE r loc = none) :
    ∀ (rest pre : List (Nat × T)) (c : Nat) (oc : T) (fuel : Nat) (t : A)
      (g g' : List (Nat × A)),
      IsChain loc r (pre ++ (c, oc) :: rest) →
      cascade τ loc fuel c t g = some g' →
      lastKey c rest ∈ g.map (·.1) →
      lookupE (lastKey c rest) g' = some (chainProd τ (t * τ oc) rest) := by
  intro rest
  induction rest with
  | nil =>
    intro pre c oc fuel t g g' hch hcas hk
    cases fuel with
    | zero => cases hcas
    | succ f =>
      rw [cascade_succ] at hcas
      have hlook : lookupE c loc = some (lastKey r pre, oc) := isChain_parent hch
      have hstep : stepT τ loc c t = t * τ oc := by simp [stepT, hlook]
      rw [hstep] at hcas
      have hnr : ∀ s ∈ linksOf loc c, ¬ Reach loc s c := by
        intro s hs hr
        have hcm : c ∈ (pre ++ (c, oc) :: ([] : List (Nat × T))).map (·.1) := by simp
        rcases chain_reach nd hch c hcm s hr with hm | hrr
        · obtain ⟨os, hos⟩ := linksOf_lookup nd hs
          obtain ⟨vs, hvs⟩ := child_in_chain nd rt hch rfl hm hos
          cases hvs
        · have hsr : s = r := reach_of_no_local rt hrr
          subst hsr
          exact absurd (linksOf_subset_keys hs) (lookupE_eq_none.1 rt)
      have he := pres_children_of τ loc f (pres_cascade τ loc f) _ _ _ _ hcas c hnr
      show lookupE c g' = some (t * τ oc)
      rw [he, lookupE_setG_self]
      have hsome : (lookupE c g).isSome = true := lookupE_isSome.2 hk
      cases hlc : lookupE c g with
      | none => rw [hlc] at hsome; cases hsome
      | some v => rfl
  | cons z rest' ih =>
    intro pre c oc fuel t g g' hch hcas hk
    obtain ⟨c2, o2⟩ := z
    cases fuel with
    | zero => cases hcas
    | succ f =>
      rw [cascade_succ] at hcas
      have hlook : lookupE c loc = some (lastKey r pre, oc) := isChain_parent hch
      have hstep : stepT τ loc c t = t * τ oc := by simp [stepT, hlook]
      rw [hstep] at hcas
      have hch' : IsChain loc r ((pre ++ [(c, oc)]) ++ (c2, o2) :: rest') := by
        simpa [List.append_assoc] using hch
      have hlk2 : lookupE c2 loc = some (c, o2) := by
        have := isChain_parent hch'
        rwa [lastKey_append_single] at this
      have hc2 : c2 ∈ linksOf loc c := lookup_linksOf hlk2
      obtain ⟨La, Lb, hLL⟩ := List.append_of_mem hc2
      have hndL : (linksOf loc c).Nodup := linksOf_nodup nd
      rw [hLL] at hndL
      obtain ⟨_, hnd2, hdisj⟩ := List.nodup_append.1 hndL
      have hc2Lb : c2 ∉ Lb := (List.nodup_cons.1 hnd2).1
      rw [hLL, cascadeChildren_append] at hcas
      cases hog2 : cascadeChildren τ loc f La (t * τ oc) (some (setG g c (t * τ oc))) with
      | none =>
        rw [hog2, cascadeChildren_none] at hcas
        cases hcas
      | some g2 =>
        rw [hog2, cascadeChildren_cons] at hcas
        cases hg3 : cascade τ loc f c2 (t * τ oc) g2 with
        | none => rw [hg3] at hcas; cases hcas
        | some g3 =>
          rw [hg3] at hcas
          have hkeys2 : g2.map (·.1) = g.map (·.1) := by
            rw [keys_children_of τ loc f (keys_cascade τ loc f) _ _ _ _ hog2, keys_setG]
          have htgt : lastKey c ((c2, o2) :: rest') = lastKey c2 rest' := rfl
          have hk2 : lastKey c2 rest' ∈ g2.map (·.1) := by
            rw [hkeys2]
            rw [htgt] at hk
            exact hk
          have hmain := ih (pre ++ [(c, oc)]) c2 o2 f (t * τ oc) g2 g3 hch' hg3 hk2
          have hnrb : ∀ s ∈ Lb, ¬ Reach loc s (lastKey c2 rest') := by
            intro s hs hr
            have hsc : s ∈ linksOf loc c := by
              rw [hLL]
              exact List.mem_append_right La (List.mem_cons_of_mem _ hs)
            have htm : lastKey c2 rest' ∈
                (pre ++ (c, oc) :: (c2, o2) :: rest').map (·.1) := by
              have hlm := lastKey_mem rest' c2
              simp only [List.map_append, List.map_cons, List.mem_append, List.mem_cons]
              rcases List.mem_cons.1 hlm with h1 | h1
              · exact Or.inr (Or.inr (Or.inl h1))
              · exact Or.inr (Or.inr (Or.inr h1))
            rcases chain_reach nd hch _ htm s hr with hm | hrr
            · obtain ⟨os, hos⟩ := linksOf_lookup nd hsc
              obtain ⟨vs, hvs⟩ := child_in_chain nd rt hch rfl hm hos
              have hsc2 : c2 = s := congrArg Prod.fst (List.head_eq_of_cons_eq hvs)
              exact hc2Lb (hsc2 ▸ hs)
            · have hsr : s = r := reach_of_no_local rt hrr
              subst hsr
              exact absurd (linksOf_subset_keys hsc) (lookupE_eq_none.1 rt)
          have hfin := pres_children_of τ loc f (pres_cascade τ loc f) _ _ _ _ hcas _ hnrb
          rw [htgt, hfin, hmain]
          rfl

/-! ### Lifting to the whole hierarchy pass -/

theorem keys_processRoots (loc : List (Nat × Nat × T)) (fuel : Nat) :
    ∀ rs (g gfin : List (Nat × A)), processRoots τ loc fuel rs g = some gfin →
      gfin.map (·.1) = g.map (·.1) := by
  intro rs
  induction rs with
  | nil =>
    intro g gfin h
    cases h
    rfl
  | cons x rs ih =>
    intro g gfin h
    cases hx : lookupE x g with
    | none =>
      simp only [processRoots, hx] at h
      exact ih g gfin h
    | some gx =>
      simp only [processRoots, hx] at h
      cases hc : cascadeChildren τ loc fuel (linksOf loc x) gx (some g) with
      | none => simp only [hc] at h; cases h
      | some g1 =>
        simp only [hc] at h
        rw [ih g1 gfin h, keys_children_of τ loc fuel (keys_cascade τ loc fuel) _ _ _ _ hc]

/-- Preservation across the whole root loop: an entity no root's
cascade can reach (and whose skipped roots stay skipped) keeps its
`GlobalTransform`. -/
theorem processRoots_pres (loc : List (Nat × Nat × T)) (fuel : Nat) :
    ∀ rs (g gfin : List (Nat × A)) y, processRoots τ loc fuel rs g = some gfin →
      (∀ x ∈ rs, (¬ x ∈ g.map (·.1)) ∨ (∀ s ∈ linksOf loc x, ¬ Reach loc s y)) →
      lookupE y gfin = lookupE y g := by
  intro rs
  induction rs with
  | nil =>
    intro g gfin y h _
    cases h
    rfl
  | cons x rs ih =>
    intro g gfin y h hys
    cases hx : lookupE x g with
    | none =>
      simp only [processRoots, hx] at h
      exact ih g gfin y h (fun x' hx' => hys x' (List.mem_cons_of_mem _ hx'))
    | some gx =>
      simp only [processRoots, hx] at h
      have hxk : x ∈ g.map (·.1) := lookupE_isSome.1 (by rw [hx]; rfl)
      have hnr : ∀ s ∈ linksOf loc x, ¬ Reach loc s y := by
        rcases hys x (List.mem_cons_self _ _) with h1 | h1
        · exact absurd hxk h1
        · exact h1
      cases hc : cascadeChildren τ loc fuel (linksOf loc x) gx (some g) with
      | none => simp only [hc] at h; cases h
      | some g1 =>
        simp only [hc] at h
        have hkeys : g1.map (·.1) = g.map (·.1) :=
          keys_children_of τ loc fuel (keys_cascade τ loc fuel) _ _ _ _ hc
        have e1 := pres_children_of τ loc fuel (pres_cascade τ loc fuel) _ _ _ _ hc y hnr
        have e2 := ih g1 gfin y h (by
          intro x' hx'
          rcases hys x' (List.mem_cons_of_mem _ hx') with h1 | h1
          · exact Or.inl (by rw [hkeys]; exact h1)
          · exact Or.inr h1)
        rw [e2, e1]

/-- The stored parent of any chain member is the chain root or carries
a `LocalTransform` itself. -/
theorem chain_parent_root_or_key {loc : List (Nat × Nat × T)} {r : Nat}
    {full : List (Nat × T)} (hch : IsChain loc r full) {s q : Nat} {os : T}
    (hs : s ∈ full.map (·.1)) (hlk : lookupE s loc = some (q, os)) :
    q = r ∨ q ∈ loc.map (·.1) := by
  obtain ⟨o'', hmem⟩ : ∃ o'', (s, o'') ∈ full := by
    obtain ⟨⟨s', o''⟩, hm, he⟩ := List.mem_map.1 hs
    cases he
    exact ⟨o'', hm⟩
  obtain ⟨us, vs, hdec⟩ := List.append_of_mem hmem
  have hpar : lookupE s loc = some (lastKey r us, o'') := isChain_parent (hdec ▸ hch)
  rw [hlk] at hpar
  have hq : q = lastKey r us := congrArg Prod.fst (Option.some.inj hpar)
  rcases List.mem_cons.1 (lastKey_mem us r) with h1 | h1
  · exact Or.inl (hq.trans h1)
  · right
    apply isChain_subset_keys hch
    rw [hq, hdec]
    simp only [List.map_append, List.mem_append]
    exact Or.inl h1

/-- Chain correctness across the whole root loop: if `r` is a root of a
parent chain and its `GlobalTransform` reads `gr` when the hierarchy
pass starts, the pass writes the chain's last entity with `gr` composed
with every offset along the chain. -/
theorem processRoots_chain (loc : List (Nat × Nat × T)) (nd : (loc.map (·.1)).Nodup)
    (r : Nat) (rt : lookupE r loc = none) (c1 : Nat) (o1 : T) (ch : List (Nat × T))
    (hch : IsChain loc r ((c1, o1) :: ch)) :
    ∀ rs (g gfin : List (Nat × A)) fuel,
      r ∈ rs → rs.Nodup → (∀ x ∈ rs, lookupE x loc = none) →
      processRoots τ loc fuel rs g = some gfin →
      lookupE r g = some gr →
      lastKey c1 ch ∈ g.map (·.1) →
      lookupE (lastKey c1 ch) gfin = some (chainProd τ gr ((c1, o1) :: ch)) := by
  intro rs
  induction rs with
  | nil => intro g gfin fuel hr; cases hr
  | cons x rs ih =>
    intro g gfin fuel hr hnd hrt h hg hk
    have hrtx := hrt x (List.mem_cons_self _ _)
    by_cases hxr : x = r
    · subst hxr
      simp only [processRoots, hg] at h
      have hc1 : c1 ∈ linksOf loc x := lookup_linksOf hch.1
      obtain ⟨La, Lb, hLL⟩ := List.append_of_mem hc1
      have hndL : (linksOf loc x).Nodup := linksOf_nodup nd
      rw [hLL] at hndL
      obtain ⟨_, hnd2, _⟩ := List.nodup_append.1 hndL
      have hc1Lb : c1 ∉ Lb := (List.nodup_cons.1 hnd2).1
      rw [hLL, cascadeChildren_append] at h
      cases hog2 : cascadeChildren τ loc fuel La gr (some g) with
      | none =>
        rw [hog2, cascadeChildren_none] at h
        cases h
      | some g2 =>
        rw [hog2, cascadeChildren_cons] at h
        cases hg3 : cascade τ loc fuel c1 gr g2 with
        | none => simp only [hg3] at h; cases h
        | some g3 =>
          simp only [hg3] at h
          cases hg1 : cascadeChildren τ loc fuel Lb gr (some g3) with
          | none => simp only [hg1] at h; cases h
          | some g1 =>
            simp only [hg1] at h
            have hkeys2 : g2.map (·.1) = g.map (·.1) := by
              rw [keys_children_of τ loc fuel (keys_cascade τ loc fuel) _ _ _ _ hog2]
            have hk2 : lastKey c1 ch ∈ g2.map (·.1) := by rw [hkeys2]; exact hk
            have hmain := cascade_chain τ loc nd x hrtx ch [] c1 o1 fuel gr g2 g3
              (by simpa using hch) hg3 hk2
            have hnrb : ∀ s ∈ Lb, ¬ Reach loc s (lastKey c1 ch) := by
              intro s hs hr2
              have hsc : s ∈ linksOf loc x := by
                rw [hLL]
                exact List.mem_append_right La (List.mem_cons_of_mem _ hs)
              have htm : lastKey c1 ch ∈ ((c1, o1) :: ch).map (·.1) := lastKey_mem ch c1
              rcases chain_reach nd hch _ htm s hr2 with hm | hrr
              · obtain ⟨os, hos⟩ := linksOf_lookup nd hsc
                obtain ⟨vs, hvs⟩ := child_of_root_in_chain nd hrtx hch hm hos
                have hsc1 : c1 = s := congrArg Prod.fst (List.head_eq_of_cons_eq hvs)
                exact hc1Lb (hsc1 ▸ hs)
              · have hsr : s = x := reach_of_no_local hrtx hrr
                subst hsr
                exact absurd (linksOf_subset_keys hsc) (lookupE_eq_none.1 hrtx)
            have e1 := pres_children_of τ loc fuel (pres_cascade τ loc fuel) _ _ _ _ hg1
              (lastKey c1 ch) hnrb
            have hnd' := (List.nodup_cons.1 hnd).1
            have e2 := processRoots_pres τ loc fuel rs g1 gfin (lastKey c1 ch) h (by
              intro x' hx'
              right
              intro s hs hr2
              have hrtx' := hrt x' (List.mem_cons_of_mem _ hx')
              have htm : lastKey c1 ch ∈ ((c1, o1) :: ch).map (·.1) := lastKey_mem ch c1
              rcases chain_reach nd hch _ htm s hr2 with hm | hrr
              · obtain ⟨os, hos⟩ := linksOf_lookup nd hs
                rcases chain_parent_root_or_key hch hm hos with h1 | h1
                · exact hnd' (h1 ▸ hx')
                · exact absurd h1 (lookupE_eq_none.1 hrtx')
              · have hsr : s = x := reach_of_no_local hrtx hrr
                subst hsr
                exact absurd (linksOf_subset_keys hs) (lookupE_eq_none.1 hrtx))
            rw [e2, e1, hmain]
            rfl
    · have hr' : r ∈ rs := by
        rcases List.mem_cons.1 hr with h1 | h1
        · exact absurd h1.symm hxr
        · exact h1
      cases hx : lookupE x g with
      | none =>
        simp only [processRoots, hx] at h
        exact ih g gfin fuel hr' (List.nodup_cons.1 hnd).2
          (fun z hz => hrt z (List.mem_cons_of_mem _ hz)) h hg hk
      | some gx =>
        simp only [processRoots, hx] at h
        cases hc : cascadeChildren τ loc fuel (linksOf loc x) gx (some g) with
        | none => simp only [hc] at h; cases h
        | some g1 =>
          simp only [hc] at h
          have hnr : ∀ s ∈ linksOf loc x, ¬ Reach loc s r := by
            intro s hs hr2
            have hsr : s = r := reach_of_no_local rt hr2
            subst hsr
            exact absurd (linksOf_subset_keys hs) (lookupE_eq_none.1 rt)
          have e1 := pres_children_of τ loc fuel (pres_cascade τ loc fuel) _ _ _ _ hc r hnr
          have hkeys : g1.map (·.1) = g.map (·.1) :=
            keys_children_of τ loc fuel (keys_cascade τ loc fuel) _ _ _ _ hc
          exact ih g1 gfin fuel hr' (List.nodup_cons.1 hnd).2
            (fun z hz => hrt z (List.mem_cons_of_mem _ hz)) h
            (by rw [e1]; exact hg) (by rw [hkeys]; exact hk)

/-! ### The flat pass -/

theorem keys_process_global (tr : List (Nat × T)) (g : List (Nat × A)) :
    (process_global_transform τ tr g).map (·.1) = g.map (·.1) := by
  induction g with
  | nil => rfl
  | cons p rest ih =>
    simp only [process_global_transform, List.map_cons] at *
    cases h : lookupE p.1 tr <;> simp [h, ih]

theorem lookupE_process_global_some {tr : List (Nat × T)} {e : Nat} {t : T}
    (h : lookupE e tr = some t) (g : List (Nat × A)) :
    lookupE e (process_global_transform τ tr g) =
      (lookupE e g).map (fun _ => τ t) := by
  induction g with
  | nil => rfl
  | cons p rest ih =>
    obtain ⟨a, v⟩ := p
    by_cases hae : a = e
    · subst hae
      simp [process_global_transform, lookupE, h]
    · cases h2 : lookupE a tr <;>
        simp only [process_global_transform, List.map_cons, h2, lookupE, hae, if_false] at * <;>
        exact ih

theorem lookupE_process_global_none {tr : List (Nat × T)} {e : Nat}
    (h : lookupE e tr = none) (g : List (Nat × A)) :
    lookupE e (process_global_transform τ tr g) = lookupE e g := by
  induction g with
  | nil => rfl
  | cons p rest ih =>
    obtain ⟨a, v⟩ := p
    by_cases hae : a = e
    · subst hae
      simp [process_global_transform, lookupE, h]
    · cases h2 : lookupE a tr <;>
        simp only [process_global_transform, List.map_cons, h2, lookupE, hae, if_false] at * <;>
        exact ih

end Spatial

/-! ## Claims about the spatial resolver -/

/-- **C1** — For every hierarchy child reachable from a root whose
`GlobalTransform` is resolvable (readable after the flat pass), the
hierarchy pass writes the child's `GlobalTransform` to the parent's
world transform composed with `to_affine` of each `ParentLink`
(`LocalTransform`) offset down the chain, recursively; the chain's last
entity ends at `gr * τ o₁ * … * τ oₖ`.  No hypothesis constrains the
child's own `Transform` component: the hierarchy value wins even when
the child carries one (the flat pass runs first, the hierarchy pass
overwrites).  The `Nodup` hypothesis is hecs's one-component-per-entity
guarantee; fuel `loc.length + 1` always suffices. -/
theorem claim_C1_hierarchy_chain {T A : Type} (τ : T → A) [Mul A]
    {tr : List (Nat × T)} {loc : List (Nat × Nat × T)} {g0 : List (Nat × A)}
    {r c1 : Nat} {o1 : T} {ch : List (Nat × T)} {gr : A}
    (nd : (loc.map (·.1)).Nodup)
    (rt : lookupE r loc = none)
    (hch : IsChain loc r ((c1, o1) :: ch))
    (hgr : lookupE r (process_global_transform τ tr g0) = some gr)
    (hk : lastKey c1 ch ∈ g0.map (·.1)) :
    ∃ gfin, resolve τ tr loc (loc.length + 1) g0 = some gfin ∧
      lookupE (lastKey c1 ch) gfin = some (chainProd τ gr ((c1, o1) :: ch)) := by
  have hterm := process_transform_hierarchy_isSome τ loc nd (process_global_transform τ tr g0)
  cases hres : process_transform_hierarchy τ loc (loc.length + 1)
      (process_global_transform τ tr g0) with
  | none => rw [hres] at hterm; cases hterm
  | some gfin =>
    refine ⟨gfin, hres, ?_⟩
    have hrin : r ∈ rootsOf loc := by
      have hpar : r ∈ loc.map (·.2.1) :=
        List.mem_map.2 ⟨(c1, (r, o1)), lookupE_mem hch.1, rfl⟩
      simp only [rootsOf, List.mem_filter, decide_eq_true_eq]
      exact ⟨List.mem_dedup.2 hpar, lookupE_eq_none.1 rt⟩
    have hkk : lastKey c1 ch ∈ (process_global_transform τ tr g0).map (·.1) := by
      rw [keys_process_global]
      exact hk
    exact processRoots_chain τ loc nd r rt c1 o1 ch hch (rootsOf loc) _ gfin _
      hrin (rootsOf_nodup loc) roots_no_local hres hgr hkk

/-- Witness for C1: the spec's concrete chain root→A→B with root
`GlobalTransform = I`, A offset `translate(1,0,0)`, B offset
`translate(0,1,0)`, and B additionally carrying its own (overridden)
`Transform` `translate(9,9,9)`; after resolution B's `GlobalTransform`
is `translate(1,1,0)`. -/
theorem claim_C1_witness :
    ∃ gfin, resolve Transform.to_affine
        [(2, Transform.fromTranslation 9 9 9)]
        [(1, (0, Transform.fromTranslation 1 0 0)), (2, (1, Transform.fromTranslation 0 1 0))]
        3
        [(0, affId), (1, affId), (2, affId)] = some gfin ∧
      lookupE 2 gfin = some (translate 1 1 0) ∧ lookupE 1 gfin = some (translate 1 0 0) := by
  obtain ⟨gfin, h1, h2⟩ := @claim_C1_hierarchy_chain Transform Aff Transform.to_affine _
    [(2, Transform.fromTranslation 9 9 9)]
    [(1, (0, Transform.fromTranslation 1 0 0)), (2, (1, Transform.fromTranslation 0 1 0))]
    [(0, affId), (1, affId), (2, affId)]
    0 1 (Transform.fromTranslation 1 0 0) [(2, Transform.fromTranslation 0 1 0)] affId
    (by decide) (by decide) ⟨by decide, by decide, trivial⟩ (by decide) (by decide)
  have h1' : resolve Transform.to_affine
      [(2, Transform.fromTranslation 9 9 9)]
      [(1, (0, Transform.fromTranslation 1 0 0)), (2, (1, Transform.fromTranslation 0 1 0))]
      3
      [(0, affId), (1, affId), (2, affId)] = some gfin := h1
  have hcomp : resolve Transform.to_affine
      [(2, Transform.fromTranslation 9 9 9)]
      [(1, (0, Transform.fromTranslation 1 0 0)), (2, (1, Transform.fromTranslation 0 1 0))]
      3
      [(0, affId), (1, affId), (2, affId)] =
      some [(0, affId), (1, translate 1 0 0), (2, translate 1 1 0)] := by decide
  rw [hcomp] at h1'
  cases h1'
  exact ⟨_, hcomp, by decide, by decide⟩

/-- **C2** — After a full resolution pass, every entity holding both a
`Transform` and a `GlobalTransform` and no `ParentLink`
(`LocalTransform`) has `GlobalTransform = to_affine(Transform)`,
exactly (the embedding computes in exact arithmetic; for the identity
transform this is bit-exact in floats as well). -/
theorem claim_C2_flat_exact {T A : Type} (τ : T → A) [Mul A]
    {tr : List (Nat × T)} {loc : List (Nat × Nat × T)} {g0 : List (Nat × A)}
    {e : Nat} {t : T}
    (nd : (loc.map (·.1)).Nodup)
    (ht : lookupE e tr = some t)
    (hl : lookupE e loc = none)
    (hk : e ∈ g0.map (·.1)) :
    ∃ gfin, resolve τ tr loc (loc.length + 1) g0 = some gfin ∧
      lookupE e gfin = some (τ t) := by
  have hterm := process_transform_hierarchy_isSome τ loc nd (process_global_transform τ tr g0)
  cases hres : process_transform_hierarchy τ loc (loc.length + 1)
      (process_global_transform τ tr g0) with
  | none => rw [hres] at hterm; cases hterm
  | some gfin =>
    refine ⟨gfin, hres, ?_⟩
    have hpres := processRoots_pres τ loc (loc.length + 1) (rootsOf loc) _ gfin e hres (by
      intro x _
      right
      intro s hs hr2
      rcases reach_keys hr2 with h1 | h1
      · exact absurd (h1 ▸ linksOf_subset_keys hs) (lookupE_eq_none.1 hl)
      · exact absurd h1 (lookupE_eq_none.1 hl))
    rw [hpres, lookupE_process_global_some τ ht g0]
    have hsome : (lookupE e g0).isSome = true := lookupE_isSome.2 hk
    cases hlc : lookupE e g0 with
    | none => rw [hlc] at hsome; cases hsome
    | some v => rfl

/-- Witness for C2 at the identity transform: an entity with
`Transform = IDENTITY`, a stale `GlobalTransform`, and no parent link
ends with `GlobalTransform = to_affine(IDENTITY) = affId` exactly. -/
theorem claim_C2_witness :
    ∃ gfin, resolve Transform.to_affine [(5, Transform.IDENTITY)]
        ([] : List (Nat × Nat × Transform)) 1 [(5, translate 7 7 7)] = some gfin ∧
      lookupE 5 gfin = some affId := by
  obtain ⟨gfin, h1, h2⟩ := @claim_C2_flat_exact Transform Aff Transform.to_affine _
    [(5, Transform.IDENTITY)] ([] : List (Nat × Nat × Transform)) [(5, translate 7 7 7)]
    5 Transform.IDENTITY (by decide) (by decide) (by decide) (by decide)
  exact ⟨gfin, h1, by rw [h2]; decide⟩

/-- **C3 (counterexample to the stated claim)** — the spec predicts
that a cyclic `ParentLink` graph "will recurse indefinitely"; on the
code, the two-entity cycle `1 ↔ 2` produces an empty root set (both
cycle members carry a `LocalTransform`, so neither passes the
`!entries.contains` root filter), the traversal never starts, and the
hierarchy pass terminates — even with zero recursion fuel — leaving the
world unchanged. -/
theorem claim_C3_counterexample :
    process_transform_hierarchy Transform.to_affine
        [(1, (2, Transform.IDENTITY)), (2, (1, Transform.IDENTITY))] 0
        [(1, affId), (2, affId)] = some [(1, affId), (2, affId)] ∧
      rootsOf [(1, (2, Transform.IDENTITY)), (2, (1, Transform.IDENTITY))] = [] :=
  ⟨by decide, by decide⟩

/-- **C3 (amended)** — the hierarchy traversal terminates on every
input, cyclic `ParentLink` graphs included: members of a cycle are
never reachable from any root (every root has no `LocalTransform`,
while every entity reachable from one hangs below it by a chain of
unique parents), so cycles are silently skipped rather than recursed
into.  Fuel `loc.length + 1` always suffices; the `Nodup` hypothesis is
hecs's one-component-per-entity guarantee. -/
theorem claim_C3_terminates_always {T A : Type} (τ : T → A) [Mul A]
    (loc : List (Nat × Nat × T)) (nd : (loc.map (·.1)).Nodup) (g : List (Nat × A)) :
    ∃ gfin, process_transform_hierarchy τ loc (loc.length + 1) g = some gfin := by
  have hterm := process_transform_hierarchy_isSome τ loc nd g
  cases hres : process_transform_hierarchy τ loc (loc.length + 1) g with
  | none => rw [hres] at hterm; cases hterm
  | some gfin => exact ⟨gfin, rfl⟩

/-- Witness for the amended C3, at the cyclic input itself. -/
theorem claim_C3_witness :
    ∃ gfin, process_transform_hierarchy Transform.to_affine
        [(1, (2, Transform.IDENTITY)), (2, (1, Transform.IDENTITY))] 3
        [(1, affId), (2, affId)] = some gfin :=
  claim_C3_terminates_always Transform.to_affine
    [(1, (2, Transform.IDENTITY)), (2, (1, Transform.IDENTITY))] (by decide)
    [(1, affId), (2, affId)]

/-- **C4 (counterexample to the stated claim)** — the claim says an
entity whose `ParentLink` names a nonexistent parent "retains its
previous GlobalTransform value unchanged after the full resolution
pass"; but the flat pass still refreshes the entity from its own
`Transform`: entity 1 has parent 99 (nonexistent), own `Transform`
`translate(5,0,0)` and previous `GlobalTransform = I`; after the full
pass its `GlobalTransform` is `translate(5,0,0) ≠ I`. -/
theorem claim_C4_counterexample :
    resolve Transform.to_affine [(1, Transform.fromTranslation 5 0 0)]
        [(1, (99, Transform.IDENTITY))] 2 [(1, affId)] =
      some [(1, translate 5 0 0)] ∧
      lookupE 1 [(1, translate 5 0 0)] ≠ lookupE 1 [(1, affId)] :=
  ⟨by decide, by decide⟩

/-- **C4 (amended)** — an entity whose `ParentLink` parent is a root
with no resolvable `GlobalTransform` (in particular a nonexistent
parent) is skipped by the hierarchy pass without error: after the full
pass its `GlobalTransform` equals its flat-pass value — which is its
previous value unchanged whenever the entity carries no own
`Transform`. -/
theorem claim_C4_orphan_skip {T A : Type} (τ : T → A) [Mul A]
    {tr : List (Nat × T)} {loc : List (Nat × Nat × T)} {g0 : List (Nat × A)}
    {e p : Nat} {o : T}
    (nd : (loc.map (·.1)).Nodup)
    (hl : lookupE e loc = some (p, o))
    (hrp : lookupE p loc = none)
    (hpg : lookupE p (process_global_transform τ tr g0) = none) :
    ∃ gfin, resolve τ tr loc (loc.length + 1) g0 = some gfin ∧
      lookupE e gfin = lookupE e (process_global_transform τ tr g0) ∧
      (lookupE e tr = none → lookupE e gfin = lookupE e g0) := by
  have hterm := process_transform_hierarchy_isSome τ loc nd (process_global_transform τ tr g0)
  cases hres : process_transform_hierarchy τ loc (loc.length + 1)
      (process_global_transform τ tr g0) with
  | none => rw [hres] at hterm; cases hterm
  | some gfin =>
    refine ⟨gfin, hres, ?_, ?_⟩
    · exact processRoots_pres τ loc (loc.length + 1) (rootsOf loc) _ gfin e hres (by
        intro x _
        by_cases hxp : x = p
        · subst hxp
          exact Or.inl (lookupE_eq_none.1 hpg)
        · right
          intro s hs hr2
          rcases reach_to_chain_head nd hl hr2 with h1 | h1
          · subst h1
            obtain ⟨os, hos⟩ := linksOf_lookup nd hs
            rw [hl] at hos
            exact hxp (congrArg Prod.fst (Option.some.inj hos)).symm
          · have hsp : s = p := reach_of_no_local hrp h1
            subst hsp
            exact absurd (linksOf_subset_keys hs) (lookupE_eq_none.1 hrp))
    · intro htr
      have h1 := processRoots_pres τ loc (loc.length + 1) (rootsOf loc) _ gfin e hres (by
        intro x _
        by_cases hxp : x = p
        · subst hxp
          exact Or.inl (lookupE_eq_none.1 hpg)
        · right
          intro s hs hr2
          rcases reach_to_chain_head nd hl hr2 with h2 | h2
          · subst h2
            obtain ⟨os, hos⟩ := linksOf_lookup nd hs
            rw [hl] at hos
            exact hxp (congrArg Prod.fst (Option.some.inj hos)).symm
          · have hsp : s = p := reach_of_no_local hrp h2
            subst hsp
            exact absurd (linksOf_subset_keys hs) (lookupE_eq_none.1 hrp))
      rw [h1, lookupE_process_global_none τ htr g0]

/-- Witness for the amended C4: an orphan (parent 99 does not exist)
with no own `Transform` keeps its `GlobalTransform` `translate(3,0,0)`
bit-for-bit. -/
theorem claim_C4_witness :
    ∃ gfin, resolve Transform.to_affine ([] : List (Nat × Transform))
        [(1, (99, Transform.IDENTITY))] 2 [(1, translate 3 0 0)] = some gfin ∧
      lookupE 1 gfin = lookupE 1 [(1, translate 3 0 0)] := by
  obtain ⟨gfin, h1, h2, h3⟩ := @claim_C4_orphan_skip Transform Aff Transform.to_affine _
    ([] : List (Nat × Transform)) [(1, (99, Transform.IDENTITY))] [(1, translate 3 0 0)]
    1 99 Transform.IDENTITY (by decide) (by decide) (by decide) (by decide)
  exact ⟨gfin, h1, by rw [h3 (by decide)]⟩


/-! ## Instance batching (`pipelines/src/texture_renderer.rs`)

Batch keys and resource identities are `Nat` (`TextureId`, `MeshId`);
packed per-instance records are an opaque payload type `κ` (their
contents — transform matrix, color, size — do not affect the batching
logic).  An entity scan result is the list of `(batch key, record)`
pairs in query order. -/

/-- Modelled from the spec: `renderer::tools::InstanceBuffer` (the
`renderer` crate's `tools` module is not under the sources) — a
GPU-resident array of packed records with a capacity; `update`
overwrites in place, or reallocates when the new record count exceeds
the capacity (spec §4.2 step 3: "grow/reallocate if the instance count
exceeds current capacity, otherwise overwrite in place"); `count` is
the current record count (spec P6). -/
structure IBuf (κ : Type) where
  capacity : Nat
  data : List κ
deriving DecidableEq, Repr

def IBuf.new {κ : Type} (d : List κ) : IBuf κ :=
  ⟨d.length, d⟩

/-- Returns the updated buffer and whether a reallocation took place. -/
def IBuf.update {κ : Type} (b : IBuf κ) (d : List κ) : IBuf κ × Bool :=
  if d.length ≤ b.capacity then (⟨b.capacity, d⟩, false) else (⟨d.length, d⟩, true)

def IBuf.count {κ : Type} (b : IBuf κ) : Nat :=
  b.data.length

/-- One step of the entity-scan fold of `TextureRenderer::prep`:
`acc.entry(key).or_insert_with(Vec::new).push(instance)`, keeping
insertion order. -/
def accAdd {κ : Type} : List (Nat × List κ) → Nat → κ → List (Nat × List κ)
  | [], k, v => [(k, [v])]
  | (k', l) :: rest, k, v =>
    if k' = k then (k', l ++ [v]) :: rest else (k', l) :: accAdd rest k v

/-- The whole scan: fold every `(GlobalTransform, Sprite)` entity into
the per-key accumulation. -/
def accOf {κ : Type} (es : List (Nat × κ)) : List (Nat × List κ) :=
  es.foldl (fun a e => accAdd a e.1 e.2) []

/-- The records scanned for key `K`, in order. -/
def recsOf {κ : Type} (K : Nat) (es : List (Nat × κ)) : List κ :=
  (es.filter (fun e => decide (e.1 = K))).map (·.2)

/-- `TextureRenderer` state: the live `TextureId → InstanceBuffer`
mapping (the held `Arc<LoadedTexture>` is identified by its id). -/
structure TexSt (κ : Type) where
  instances : List (Nat × IBuf κ)
deriving DecidableEq, Repr

/-- Buffer-lifecycle events of one `prep` run: keys whose buffer was
created (`or_insert_with`), updated in place (`and_modify`), reallocated
inside an update (capacity growth), destroyed (stale-key removal). -/
structure PrepEv where
  created : List Nat
  destroyed : List Nat
  updated : List Nat
  regrown : List Nat
deriving DecidableEq, Repr

/-- The per-key reconciliation loop of `TextureRenderer::prep` (step 3
of the batcher): for every accumulated key, update the existing buffer
in place or create a new one.  Returns the new mapping plus the
(created, updated, regrown) key lists. -/
def applyAcc {κ : Type} : List (Nat × IBuf κ) → List (Nat × List κ) →
    List (Nat × IBuf κ) × (List Nat × List Nat × List Nat)
  | ins, [] => (ins, ([], [], []))
  | ins, (k, raw) :: rest =>
    match lookupE k ins with
    | some b =>
      let bu := b.update raw
      let r := applyAcc (setG ins k bu.1) rest
      (r.1, (r.2.1, k :: r.2.2.1, if bu.2 then k :: r.2.2.2 else r.2.2.2))
    | none =>
      let r := applyAcc (ins ++ [(k, IBuf.new raw)]) rest
      (r.1, (k :: r.2.1, r.2.2.1, r.2.2.2))

/-- `TextureRenderer::prep`: snapshot the previous key set, accumulate
the current entities, reconcile buffers, then drop every key not seen
this frame. -/
def texPrep {κ : Type} (s : TexSt κ) (es : List (Nat × κ)) : TexSt κ × PrepEv :=
  let prev := s.instances.map (·.1)
  let acc := accOf es
  let r := applyAcc s.instances acc
  let dead := prev.filter (fun k => decide (¬ k ∈ acc.map (·.1)))
  (⟨r.1.filter (fun x => decide (¬ x.1 ∈ dead))⟩,
   ⟨r.2.1, dead, r.2.2.1, r.2.2.2⟩)

/-- `TextureRenderer::render`: with no camera nothing is drawn;
otherwise one indexed draw per live batch with instance count
`buffer.count()`. -/
def texRender {κ : Type} (camera : Bool) (s : TexSt κ) : List (Nat × Nat) :=
  if camera then s.instances.map (fun x => (x.1, x.2.count)) else []

/-! ## Instance batching (`pipelines/src/model_renderer.rs`)

The batch key is composite: `MeshId × TextureId`.  An entity is its
record payload plus the `model.meshes` list of `(mesh id, texture id)`
pairs; the per-entity scan loop over `model.meshes` is flattened into
one pass over `(mesh, texture, record)` triples (same order, same
first-occurrence structure). -/

structure ModelSt (κ : Type) where
  texture_storage : List Nat
  mesh_storage : List Nat
  instances : List (Nat × List (Nat × IBuf κ))
deriving DecidableEq, Repr

/-- The scan state of `ModelRenderer::prep`: the nested accumulation
plus the `meshes_used`/`textures_used` sets and the storages (which the
scan closures insert into for newly-seen resources). -/
structure MScan (κ : Type) where
  acc : List (Nat × List (Nat × List κ))
  meshes_used : List Nat
  textures_used : List Nat
  mesh_storage : List Nat
  texture_storage : List Nat
deriving Repr

/-- One `(mesh, texture, record)` step of the scan:
`acc.entry(mesh).or_insert_with(|| {storage insert; used insert; Map::new()})`
then `.entry(texture).or_insert_with(|| {storage insert; used insert; Vec::new()}).push(record)`. -/
def accAdd2 {κ : Type} (st : MScan κ) (m t : Nat) (v : κ) : MScan κ :=
  match lookupE m st.acc with
  | none =>
    { acc := st.acc ++ [(m, [(t, [v])])],
      meshes_used := st.meshes_used ++ [m],
      textures_used := st.textures_used ++ [t],
      mesh_storage :=
        if m ∈ st.mesh_storage then st.mesh_storage else st.mesh_storage ++ [m],
      texture_storage :=
        if t ∈ st.texture_storage then st.texture_storage else st.texture_storage ++ [t] }
  | some inner =>
    match lookupE t inner with
    | none =>
      { st with
        acc := setG st.acc m (inner ++ [(t, [v])]),
        textures_used := st.textures_used ++ [t],
        texture_storage :=
          if t ∈ st.texture_storage then st.texture_storage else st.texture_storage ++ [t] }
    | some l =>
      { st with acc := setG st.acc m (setG inner t (l ++ [v])) }

def scanModels {κ : Type} (s : ModelSt κ) (pairs : List (Nat × Nat × κ)) : MScan κ :=
  pairs.foldl (fun st p => accAdd2 st p.1 p.2.1 p.2.2)
    ⟨[], [], [], s.mesh_storage, s.texture_storage⟩

/-- Flattened `(mesh, texture, record)` triples of an entity list, in
query order. -/
def pairsOf {κ : Type} (es : List (κ × List (Nat × Nat))) : List (Nat × Nat × κ) :=
  es.flatMap (fun e => e.2.map (fun mt => (mt.1, mt.2, e.1)))

/-- The composite keys referenced this frame. -/
def usedPairs {κ : Type} (es : List (κ × List (Nat × Nat))) : List (Nat × Nat) :=
  (pairsOf es).map (fun p => (p.1, p.2.1))

/-- The inner per-texture reconciliation (`and_modify`/`or_insert_with`
on the texture entry). -/
def applyAccInner {κ : Type} : List (Nat × IBuf κ) → List (Nat × List κ) →
    List (Nat × IBuf κ)
  | ins, [] => ins
  | ins, (t, raw) :: rest =>
    match lookupE t ins with
    | some b => applyAccInner (setG ins t (b.update raw).1) rest
    | none => applyAccInner (ins ++ [(t, IBuf.new raw)]) rest

/-- The outer per-mesh reconciliation
(`instances.entry(mesh).or_insert(Map::default())`, then the inner
loop). -/
def applyAccM {κ : Type} : List (Nat × List (Nat × IBuf κ)) →
    List (Nat × List (Nat × List κ)) → List (Nat × List (Nat × IBuf κ))
  | ins, [] => ins
  | ins, (m, texmap) :: rest =>
    match lookupE m ins with
    | some inner => applyAccM (setG ins m (applyAccInner inner texmap)) rest
    | none => applyAccM (ins ++ [(m, applyAccInner [] texmap)]) rest

/-- The `(outer key, inner key)` pairs of a nested association list. -/
def keyPairs {γ : Type} (l : List (Nat × List (Nat × γ))) : List (Nat × Nat) :=
  l.flatMap (fun mi => mi.2.map (fun ti => (mi.1, ti.1)))

/-- The composite keys currently holding a buffer. -/
def pairsOfInstances {κ : Type} (ins : List (Nat × List (Nat × IBuf κ))) :
    List (Nat × Nat) :=
  keyPairs ins

def accPairs {κ : Type} (acc : List (Nat × List (Nat × List κ))) : List (Nat × Nat) :=
  keyPairs acc

/-- The stale-pair removal loop: for every previously-live pair not
seen this frame, `instances.get_mut(mesh).unwrap().remove(texture)` —
the inner entry goes away but the outer mesh entry is kept, even when
its inner map becomes empty. -/
def removeDead {κ : Type} (ins : List (Nat × List (Nat × IBuf κ)))
    (dead : List (Nat × Nat)) : List (Nat × List (Nat × IBuf κ)) :=
  ins.map (fun mi => (mi.1, mi.2.filter (fun ti => decide (¬ (mi.1, ti.1) ∈ dead))))

/-- `ModelRenderer::prep`: scan (feeding used-sets and storages),
reconcile buffers, drop stale pairs, then retain the storages to
exactly the used sets. -/
def modelPrep {κ : Type} (s : ModelSt κ) (es : List (κ × List (Nat × Nat))) :
    ModelSt κ :=
  let sc := scanModels s (pairsOf es)
  let prev := pairsOfInstances s.instances
  let ins1 := applyAccM s.instances sc.acc
  let dead := prev.filter (fun p => decide (¬ p ∈ accPairs sc.acc))
  { texture_storage := sc.texture_storage.filter (fun t => decide (t ∈ sc.textures_used)),
    mesh_storage := sc.mesh_storage.filter (fun m => decide (m ∈ sc.meshes_used)),
    instances := removeDead ins1 dead }

/-- The inner draw loop of `ModelRenderer::render`:
`texture_storage.get(texture_id).unwrap()` — `none` models the panic of
a failed unwrap. -/
def modelRenderInner {κ : Type} (texSt : List Nat) (m : Nat) :
    List (Nat × IBuf κ) → Option (List (Nat × Nat × Nat))
  | [] => some []
  | (t, b) :: rest =>
    if t ∈ texSt then
      match modelRenderInner texSt m rest with
      | none => none
      | some ds => some ((m, t, b.count) :: ds)
    else none

/-- The outer draw loop of `ModelRenderer::render`:
`mesh_storage.get(mesh_id).unwrap()` runs for every entry of
`instances` — including a mesh entry whose inner map is empty. -/
def modelRenderGo {κ : Type} (s : ModelSt κ) :
    List (Nat × List (Nat × IBuf κ)) → Option (List (Nat × Nat × Nat))
  | [] => some []
  | (m, inner) :: rest =>
    if m ∈ s.mesh_storage then
      match modelRenderInner s.texture_storage m inner with
      | none => none
      | some ds =>
        match modelRenderGo s rest with
        | none => none
        | some ds2 => some (ds ++ ds2)
    else none

/-- `ModelRenderer::render`: with no camera nothing is drawn, otherwise
iterate all live batches issuing one draw per `(mesh, texture)` with
the buffer's instance count; `none` models an unwrap panic on a cache
miss. -/
def modelRender {κ : Type} (camera : Bool) (s : ModelSt κ) :
    Option (List (Nat × Nat × Nat)) :=
  if camera then modelRenderGo s s.instances else some []

/-! ### Association-list support lemmas for the batchers -/

theorem lookupE_append_left {β : Type} {k : Nat} {l l2 : List (Nat × β)} {v : β}
    (h : lookupE k l = some v) : lookupE k (l ++ l2) = some v := by
  induction l with
  | nil => cases h
  | cons p rest ih =>
    show (if p.1 = k then some p.2 else lookupE k (rest ++ l2)) = some v
    have h' : (if p.1 = k then some p.2 else lookupE k rest) = some v := h
    by_cases hp : p.1 = k
    · rw [if_pos hp] at h' ⊢
      exact h'
    · rw [if_neg hp] at h' ⊢
      exact ih h'

theorem lookupE_append_none {β : Type} {k : Nat} {l l2 : List (Nat × β)}
    (h : lookupE k l = none) : lookupE k (l ++ l2) = lookupE k l2 := by
  induction l with
  | nil => rfl
  | cons p rest ih =>
    by_cases hp : p.1 = k
    · simp [lookupE, hp] at h
    · simp only [lookupE, hp, if_false] at h
      simp only [List.cons_append, lookupE, hp, if_false]
      exact ih h

theorem lookupE_filter_keydep {β : Type} {k : Nat} {l : List (Nat × β)} {q : Nat → Bool}
    (hq : q k = true) :
    lookupE k (l.filter (fun x => q x.1)) = lookupE k l := by
  induction l with
  | nil => rfl
  | cons p rest ih =>
    rw [List.filter_cons]
    by_cases hp : p.1 = k
    · have hqp : q p.1 = true := by rw [hp]; exact hq
      rw [if_pos hqp]
      show (if p.1 = k then some p.2 else lookupE k (rest.filter fun x => q x.1)) =
        (if p.1 = k then some p.2 else lookupE k rest)
      rw [if_pos hp, if_pos hp]
    · by_cases hql : q p.1 = true
      · rw [if_pos hql]
        show (if p.1 = k then some p.2 else lookupE k (rest.filter fun x => q x.1)) =
          (if p.1 = k then some p.2 else lookupE k rest)
        rw [if_neg hp, if_neg hp, ih]
      · rw [if_neg hql]
        show lookupE k (rest.filter fun x => q x.1) =
          (if p.1 = k then some p.2 else lookupE k rest)
        rw [if_neg hp, ih]

theorem mem_keys_filter_keydep {β : Type} {k : Nat} {l : List (Nat × β)} {q : Nat → Bool} :
    k ∈ (l.filter (fun x => q x.1)).map (·.1) ↔ k ∈ l.map (·.1) ∧ q k = true := by
  constructor
  · intro h
    obtain ⟨⟨a, b⟩, hm, he⟩ := List.mem_map.1 h
    cases he
    obtain ⟨hl, hq⟩ := List.mem_filter.1 hm
    exact ⟨List.mem_map.2 ⟨(a, b), hl, rfl⟩, hq⟩
  · rintro ⟨h, hq⟩
    obtain ⟨⟨a, b⟩, hm, he⟩ := List.mem_map.1 h
    cases he
    exact List.mem_map.2 ⟨(a, b), List.mem_filter.2 ⟨hm, hq⟩, rfl⟩

/-! ### Accumulation lemmas -/

theorem recsOf_cons {κ : Type} {K : Nat} {e : Nat × κ} {es : List (Nat × κ)} :
    recsOf K (e :: es) = if e.1 = K then e.2 :: recsOf K es else recsOf K es := by
  by_cases h : e.1 = K <;> simp [recsOf, List.filter_cons, h]

theorem recsOf_eq_nil {κ : Type} {K : Nat} {es : List (Nat × κ)} :
    recsOf K es = [] ↔ K ∉ es.map (·.1) := by
  induction es with
  | nil => simp [recsOf]
  | cons e es ih =>
    rw [recsOf_cons]
    by_cases h : e.1 = K <;> simp [h, ih]
    omega

theorem lookupE_accAdd_self {κ : Type} {acc : List (Nat × List κ)} {k : Nat} {v : κ} :
    lookupE k (accAdd acc k v) = some ((lookupE k acc).getD [] ++ [v]) := by
  induction acc with
  | nil => simp [accAdd, lookupE]
  | cons p rest ih =>
    obtain ⟨k', l⟩ := p
    by_cases hp : k' = k
    · subst hp
      simp [accAdd, lookupE]
    · simp [accAdd, hp, lookupE, ih]

theorem lookupE_accAdd_ne {κ : Type} {acc : List (Nat × List κ)} {k k' : Nat} {v : κ}
    (h : k' ≠ k) : lookupE k' (accAdd acc k v) = lookupE k' acc := by
  induction acc with
  | nil =>
    show (if k = k' then some [v] else none) = none
    rw [if_neg (fun hh => h hh.symm)]
  | cons p rest ih =>
    obtain ⟨k0, l⟩ := p
    show lookupE k' (if k0 = k then (k0, l ++ [v]) :: rest else (k0, l) :: accAdd rest k v) = _
    by_cases hp : k0 = k
    · rw [if_pos hp]
      show (if k0 = k' then some (l ++ [v]) else lookupE k' rest) =
        (if k0 = k' then some l else lookupE k' rest)
      have hne : ¬ k0 = k' := by omega
      rw [if_neg hne, if_neg hne]
    · rw [if_neg hp]
      show (if k0 = k' then some l else lookupE k' (accAdd rest k v)) =
        (if k0 = k' then some l else lookupE k' rest)
      by_cases hk : k0 = k'
      · rw [if_pos hk, if_pos hk]
      · rw [if_neg hk, if_neg hk, ih]

/-- Concatenate scanned records onto an optional existing accumulation
entry. -/
def optCat {κ : Type} : Option (List κ) → List κ → Option (List κ)
  | o, [] => o
  | none, l => some l
  | some l0, l => some (l0 ++ l)

theorem optCat_push {κ : Type} (o : Option (List κ)) (v : κ) (l : List κ) :
    optCat (some ((o.getD []) ++ [v])) l = optCat o (v :: l) := by
  cases o with
  | none => cases l <;> simp [optCat]
  | some l0 => cases l <;> simp [optCat]

theorem lookupE_fold_accAdd {κ : Type} (K : Nat) :
    ∀ (es : List (Nat × κ)) (acc : List (Nat × List κ)),
      lookupE K (es.foldl (fun a e => accAdd a e.1 e.2) acc) =
        optCat (lookupE K acc) (recsOf K es) := by
  intro es
  induction es with
  | nil =>
    intro acc
    cases h : lookupE K acc <;> simp [recsOf, optCat, h]
  | cons e es ih =>
    intro acc
    simp only [List.foldl_cons]
    rw [ih, recsOf_cons]
    by_cases he : e.1 = K
    · rw [if_pos he, ← he, lookupE_accAdd_self, he, optCat_push]
    · rw [if_neg he, lookupE_accAdd_ne (fun hh => he hh.symm)]

theorem lookupE_accOf {κ : Type} (K : Nat) (es : List (Nat × κ)) :
    lookupE K (accOf es) = optCat none (recsOf K es) := by
  have h := lookupE_fold_accAdd K es []
  simpa [accOf, lookupE] using h

theorem lookupE_accOf_of_ne_nil {κ : Type} {K : Nat} {es : List (Nat × κ)}
    (h : recsOf K es ≠ []) : lookupE K (accOf es) = some (recsOf K es) := by
  rw [lookupE_accOf]
  cases hr : recsOf K es with
  | nil => exact absurd hr h
  | cons a l => simp [optCat]

theorem mem_keys_accOf {κ : Type} {K : Nat} {es : List (Nat × κ)} :
    K ∈ (accOf es).map (·.1) ↔ K ∈ es.map (·.1) := by
  constructor
  · intro h
    by_contra hne
    have hnil : recsOf K es = [] := recsOf_eq_nil.2 hne
    have : lookupE K (accOf es) = none := by rw [lookupE_accOf, hnil]; rfl
    exact absurd h (lookupE_eq_none.1 this)
  · intro h
    have hnil : recsOf K es ≠ [] := fun he => (recsOf_eq_nil.1 he) h
    have := lookupE_accOf_of_ne_nil hnil
    exact lookupE_isSome.1 (by rw [this]; rfl)

theorem keys_accAdd {κ : Type} {acc : List (Nat × List κ)} {k : Nat} {v : κ} :
    (accAdd acc k v).map (·.1) =
      if k ∈ acc.map (·.1) then acc.map (·.1) else acc.map (·.1) ++ [k] := by
  induction acc with
  | nil => simp [accAdd]
  | cons p rest ih =>
    obtain ⟨k', l⟩ := p
    by_cases hp : k' = k
    · subst hp
      simp [accAdd]
    · have : ¬ k = k' := by omega
      by_cases hm : k ∈ rest.map (·.1) <;> simp [accAdd, hp, ih, hm, this]

theorem accOf_keys_nodup {κ : Type} (es : List (Nat × κ)) :
    ((accOf es).map (·.1)).Nodup := by
  suffices h : ∀ (l : List (Nat × κ)) (acc : List (Nat × List κ)),
      (acc.map (·.1)).Nodup →
      ((l.foldl (fun a e => accAdd a e.1 e.2) acc).map (·.1)).Nodup by
    exact h es [] List.nodup_nil
  intro l
  induction l with
  | nil => intro acc h; exact h
  | cons e es ih =>
    intro acc h
    simp only [List.foldl_cons]
    apply ih
    rw [keys_accAdd]
    by_cases hm : e.1 ∈ acc.map (·.1)
    · simpa [hm] using h
    · simp only [hm, if_false]
      exact List.Nodup.append h (List.nodup_singleton _)
        (by simpa [List.disjoint_singleton] using hm)

/-! ### Buffer-reconciliation lemmas -/

theorem keys_applyAcc_mem {κ : Type} {k : Nat} :
    ∀ (acc : List (Nat × List κ)) (ins : List (Nat × IBuf κ)),
      (k ∈ (applyAcc ins acc).1.map (·.1) ↔ k ∈ ins.map (·.1) ∨ k ∈ acc.map (·.1)) := by
  intro acc
  induction acc with
  | nil => intro ins; simp [applyAcc]
  | cons p rest ih =>
    intro ins
    obtain ⟨k', raw⟩ := p
    cases hl : lookupE k' ins with
    | some b =>
      simp only [applyAcc, hl]
      rw [ih]
      have hk' : k' ∈ ins.map (·.1) := lookupE_isSome.1 (by rw [hl]; rfl)
      rw [keys_setG]
      simp only [List.map_cons, List.mem_cons]
      constructor
      · rintro (h | h)
        · exact Or.inl h
        · exact Or.inr (Or.inr h)
      · rintro (h | h | h)
        · exact Or.inl h
        · exact Or.inl (h ▸ hk')
        · exact Or.inr h
    | none =>
      simp only [applyAcc, hl]
      rw [ih]
      simp only [List.map_append, List.mem_append, List.map_cons, List.mem_cons,
        List.map_nil, List.mem_singleton, List.not_mem_nil, or_false]
      constructor
      · rintro ((h | h) | h)
        · exact Or.inl h
        · exact Or.inr (Or.inl h)
        · exact Or.inr (Or.inr h)
      · rintro (h | h | h)
        · exact Or.inl (Or.inl h)
        · exact Or.inl (Or.inr h)
        · exact Or.inr h

theorem lookupE_append_single_ne {β : Type} {k k' : Nat} {v : β} :
    ∀ {l : List (Nat × β)}, k ≠ k' → lookupE k (l ++ [(k', v)]) = lookupE k l := by
  intro l h
  induction l with
  | nil =>
    show (if k' = k then some v else none) = none
    rw [if_neg (fun hh => h hh.symm)]
  | cons p rest ih =>
    show (if p.1 = k then some p.2 else lookupE k (rest ++ [(k', v)])) =
      (if p.1 = k then some p.2 else lookupE k rest)
    by_cases hp : p.1 = k
    · rw [if_pos hp, if_pos hp]
    · rw [if_neg hp, if_neg hp, ih]

theorem applyAcc_lookup_notin {κ : Type} {k : Nat} :
    ∀ (acc : List (Nat × List κ)) (ins : List (Nat × IBuf κ)),
      k ∉ acc.map (·.1) →
      lookupE k (applyAcc ins acc).1 = lookupE k ins := by
  intro acc
  induction acc with
  | nil => intro ins _; rfl
  | cons p rest ih =>
    intro ins hk
    obtain ⟨k', raw⟩ := p
    simp only [List.map_cons, List.mem_cons] at hk
    push_neg at hk
    cases hl : lookupE k' ins with
    | some b =>
      simp only [applyAcc, hl]
      rw [ih _ hk.2, lookupE_setG_ne hk.1]
    | none =>
      simp only [applyAcc, hl]
      rw [ih _ hk.2, lookupE_append_single_ne hk.1]

theorem applyAcc_lookup_mem {κ : Type} {k : Nat} {raw : List κ} :
    ∀ (acc : List (Nat × List κ)) (ins : List (Nat × IBuf κ)),
      ((acc.map (·.1)).Nodup) → (k, raw) ∈ acc →
      ∃ cap, lookupE k (applyAcc ins acc).1 = some ⟨cap, raw⟩ ∧ raw.length ≤ cap := by
  intro acc
  induction acc with
  | nil => intro ins _ h; cases h
  | cons p rest ih =>
    intro ins nd hm
    obtain ⟨k', raw'⟩ := p
    simp only [List.map_cons, List.nodup_cons] at nd
    rcases List.mem_cons.1 hm with h1 | h1
    · cases h1
      have hnotin : k ∉ rest.map (·.1) := nd.1
      cases hl : lookupE k ins with
      | some b =>
        simp only [applyAcc, hl]
        rw [applyAcc_lookup_notin rest _ hnotin]
        have hset : lookupE k (setG ins k (b.update raw).1) = some (b.update raw).1 := by
          rw [lookupE_setG_self, hl]
          rfl
        rw [hset]
        unfold IBuf.update
        by_cases hc : raw.length ≤ b.capacity
        · exact ⟨b.capacity, by simp [hc], hc⟩
        · exact ⟨raw.length, by simp [hc], Nat.le_refl _⟩
      | none =>
        simp only [applyAcc, hl]
        rw [applyAcc_lookup_notin rest _ hnotin, lookupE_append_none hl]
        exact ⟨raw.length, by simp [lookupE, IBuf.new], Nat.le_refl _⟩
    · obtain ⟨k0, l0⟩ := Prod.mk.injEq k' raw' k' raw' ▸ (rfl : (k', raw') = (k', raw'))
      cases hl : lookupE k' ins with
      | some b =>
        simp only [applyAcc, hl]
        exact ih _ nd.2 h1
      | none =>
        simp only [applyAcc, hl]
        exact ih _ nd.2 h1

theorem applyAcc_created_updated {κ : Type} :
    ∀ (acc : List (Nat × List κ)) (ins : List (Nat × IBuf κ)),
      (∀ k ∈ acc.map (·.1), k ∈ ins.map (·.1)) →
      (applyAcc ins acc).2.1 = [] ∧
        ∀ k ∈ acc.map (·.1), k ∈ (applyAcc ins acc).2.2.1 := by
  intro acc
  induction acc with
  | nil => intro ins _; exact ⟨rfl, by intro k h; cases h⟩
  | cons p rest ih =>
    intro ins hall
    obtain ⟨k', raw⟩ := p
    have hk' : k' ∈ ins.map (·.1) := hall k' (by simp)
    cases hl : lookupE k' ins with
    | none =>
      have := lookupE_isSome.2 hk'
      rw [hl] at this
      cases this
    | some b =>
      simp only [applyAcc, hl]
      have hrest : ∀ k ∈ rest.map (·.1), k ∈ (setG ins k' (b.update raw).1).map (·.1) := by
        intro k hk
        rw [keys_setG]
        exact hall k (by simp [hk])
      obtain ⟨h1, h2⟩ := ih _ hrest
      refine ⟨h1, ?_⟩
      intro k hk
      simp only [List.map_cons, List.mem_cons] at hk
      rcases hk with hk | hk
      · exact hk ▸ List.mem_cons_self _ _
      · exact List.mem_cons_of_mem _ (h2 k hk)

theorem applyAcc_regrown_nil {κ : Type} :
    ∀ (acc : List (Nat × List κ)) (ins : List (Nat × IBuf κ)),
      ((acc.map (·.1)).Nodup) →
      (∀ k raw b, (k, raw) ∈ acc → lookupE k ins = some b → raw.length ≤ b.capacity) →
      (∀ k ∈ acc.map (·.1), k ∈ ins.map (·.1)) →
      (applyAcc ins acc).2.2.2 = [] := by
  intro acc
  induction acc with
  | nil => intro ins _ _ _; rfl
  | cons p rest ih =>
    intro ins nd hcap hall
    obtain ⟨k', raw⟩ := p
    simp only [List.map_cons, List.nodup_cons] at nd
    have hk' : k' ∈ ins.map (·.1) := hall k' (by simp)
    cases hl : lookupE k' ins with
    | none =>
      have := lookupE_isSome.2 hk'
      rw [hl] at this
      cases this
    | some b =>
      simp only [applyAcc, hl]
      have hle : raw.length ≤ b.capacity :=
        hcap k' raw b (List.mem_cons_self _ _) hl
      have hno : (b.update raw).2 = false := by
        unfold IBuf.update
        simp [hle]
      rw [hno]
      simp only [if_false, Bool.false_eq_true]
      apply ih
      · exact nd.2
      · intro k raw2 b2 hm hlk
        have hkk : k ≠ k' := by
          intro he
          exact nd.1 (he ▸ List.mem_map.2 ⟨(k, raw2), hm, rfl⟩)
        rw [lookupE_setG_ne hkk] at hlk
        exact hcap k raw2 b2 (List.mem_cons_of_mem _ hm) hlk
      · intro k hk
        rw [keys_setG]
        exact hall k (by simp [hk])

theorem lookupE_filter_notdead {β : Type} {k : Nat} {l : List (Nat × β)}
    {dead : List Nat} (hk : ¬ k ∈ dead) :
    lookupE k (l.filter (fun x => decide (¬ x.1 ∈ dead))) = lookupE k l :=
  @lookupE_filter_keydep β k l (fun y => decide (¬ y ∈ dead)) (by simpa using hk)

theorem mem_keys_filter_notdead {β : Type} {k : Nat} {l : List (Nat × β)}
    {dead : List Nat} :
    k ∈ (l.filter (fun x => decide (¬ x.1 ∈ dead))).map (·.1) ↔
      k ∈ l.map (·.1) ∧ ¬ k ∈ dead := by
  have h := @mem_keys_filter_keydep β k l (fun y => decide (¬ y ∈ dead))
  simpa using h

/-! ### `TextureRenderer::prep` facts -/

theorem texPrep_instances {κ : Type} (s : TexSt κ) (es : List (Nat × κ)) :
    (texPrep s es).1.instances =
      (applyAcc s.instances (accOf es)).1.filter
        (fun x => decide (¬ x.1 ∈ (s.instances.map (·.1)).filter
          (fun k => decide (¬ k ∈ (accOf es).map (·.1))))) := rfl

theorem texPrep_ev {κ : Type} (s : TexSt κ) (es : List (Nat × κ)) :
    (texPrep s es).2 =
      ⟨(applyAcc s.instances (accOf es)).2.1,
       (s.instances.map (·.1)).filter (fun k => decide (¬ k ∈ (accOf es).map (·.1))),
       (applyAcc s.instances (accOf es)).2.2.1,
       (applyAcc s.instances (accOf es)).2.2.2⟩ := rfl

theorem texPrep_keys {κ : Type} {s : TexSt κ} {es : List (Nat × κ)} {k : Nat} :
    k ∈ (texPrep s es).1.instances.map (·.1) ↔ k ∈ (accOf es).map (·.1) := by
  rw [texPrep_instances]
  rw [mem_keys_filter_notdead]
  rw [keys_applyAcc_mem]
  constructor
  · rintro ⟨h1 | h1, h2⟩
    · by_contra hacc
      exact h2 (List.mem_filter.2 ⟨h1, by simpa using hacc⟩)
    · exact h1
  · intro h
    refine ⟨Or.inr h, ?_⟩
    intro hdead
    have := (List.mem_filter.1 hdead).2
    simp only [decide_eq_true_eq] at this
    exact this h

theorem texPrep_lookup {κ : Type} {s : TexSt κ} {es : List (Nat × κ)} {k : Nat}
    {b : IBuf κ} (h : lookupE k (texPrep s es).1.instances = some b) :
    b.data = recsOf k es ∧ b.data.length ≤ b.capacity := by
  have hkmem : k ∈ (texPrep s es).1.instances.map (·.1) :=
    lookupE_isSome.1 (by rw [h]; rfl)
  have hacc : k ∈ (accOf es).map (·.1) := texPrep_keys.1 hkmem
  have hrec : recsOf k es ≠ [] := fun he => (recsOf_eq_nil.1 he) (mem_keys_accOf.1 hacc)
  have hlacc : lookupE k (accOf es) = some (recsOf k es) := lookupE_accOf_of_ne_nil hrec
  obtain ⟨cap, hfin, hle⟩ := applyAcc_lookup_mem (accOf es) s.instances
    (accOf_keys_nodup es) (lookupE_mem hlacc)
  have hnotdead : ¬ k ∈ (s.instances.map (·.1)).filter
      (fun k0 => decide (¬ k0 ∈ (accOf es).map (·.1))) := by
    intro hdead
    have := (List.mem_filter.1 hdead).2
    simp only [decide_eq_true_eq] at this
    exact this hacc
  rw [texPrep_instances, lookupE_filter_notdead hnotdead, hfin] at h
  cases h
  exact ⟨rfl, hle⟩

/-! ## Claims about the instance batchers -/

/-- **C6** — running a pipeline's `prep` twice with an unchanged entity
set creates no instance buffer, destroys none, reallocates none, and
updates every surviving key in place on the second run
(`TextureRenderer::prep`, spec P4). -/
theorem claim_C6_idempotent {κ : Type} (s : TexSt κ) (es : List (Nat × κ)) :
    (texPrep (texPrep s es).1 es).2.created = [] ∧
    (texPrep (texPrep s es).1 es).2.destroyed = [] ∧
    (texPrep (texPrep s es).1 es).2.regrown = [] ∧
    (∀ k ∈ (texPrep s es).1.instances.map (·.1), k ∈ (texPrep (texPrep s es).1 es).2.updated) := by
  have hall : ∀ k ∈ (accOf es).map (·.1), k ∈ (texPrep s es).1.instances.map (·.1) :=
    fun k hk => texPrep_keys.2 hk
  obtain ⟨hcr, hup⟩ := applyAcc_created_updated (accOf es) (texPrep s es).1.instances hall
  refine ⟨?_, ?_, ?_, ?_⟩
  · rw [texPrep_ev]
    exact hcr
  · rw [texPrep_ev]
    apply List.filter_eq_nil_iff.2
    intro k hk
    simp only [decide_eq_true_eq, not_not]
    exact texPrep_keys.1 hk
  · rw [texPrep_ev]
    apply applyAcc_regrown_nil (accOf es) (texPrep s es).1.instances (accOf_keys_nodup es)
    · intro k raw b hm hlk
      have hraw : lookupE k (accOf es) = some raw :=
        lookupE_of_mem_nodup (accOf_keys_nodup es) hm
      have hrec : recsOf k es ≠ [] := by
        intro he
        rw [lookupE_accOf, he] at hraw
        cases hraw
      rw [lookupE_accOf_of_ne_nil hrec] at hraw
      obtain ⟨hdata, hle⟩ := texPrep_lookup hlk
      cases hraw
      rw [← hdata]
      exact hle
    · exact hall
  · intro k hk
    rw [texPrep_ev]
    exact hup k (texPrep_keys.1 hk)

/-- **C8** — for `N` entities sharing identical batch key `K`, after
`prep` the buffer for `K` holds exactly `N` packed records, and the
draw call `render` issues for `K` uses an instance count of `N`
(`TextureRenderer`, spec P6). -/
theorem claim_C8_draw_count {κ : Type} (s : TexSt κ) (es : List (Nat × κ)) (K : Nat)
    (hN : (es.filter (fun e => decide (e.1 = K))).length ≠ 0) :
    ∃ b, lookupE K (texPrep s es).1.instances = some b ∧
      b.data.length = (es.filter (fun e => decide (e.1 = K))).length ∧
      b.count = (es.filter (fun e => decide (e.1 = K))).length ∧
      (K, (es.filter (fun e => decide (e.1 = K))).length) ∈ texRender true (texPrep s es).1 := by
  have hrec : recsOf K es ≠ [] := by
    intro he
    have : (es.filter (fun e => decide (e.1 = K))).length = 0 := by
      have := congrArg List.length he
      simpa [recsOf] using this
    exact hN this
  have hmem : K ∈ es.map (·.1) := by
    by_contra hne
    exact hrec (recsOf_eq_nil.2 hne)
  have hacc : K ∈ (accOf es).map (·.1) := mem_keys_accOf.2 hmem
  have hk1 : K ∈ (texPrep s es).1.instances.map (·.1) := texPrep_keys.2 hacc
  have hsome := lookupE_isSome.2 hk1
  cases hb : lookupE K (texPrep s es).1.instances with
  | none => rw [hb] at hsome; cases hsome
  | some b =>
    obtain ⟨hdata, _⟩ := texPrep_lookup hb
    have hlen : b.data.length = (es.filter (fun e => decide (e.1 = K))).length := by
      rw [hdata]
      simp [recsOf]
    refine ⟨b, rfl, hlen, hlen, ?_⟩
    have hmem2 : (K, b) ∈ (texPrep s es).1.instances := lookupE_mem hb
    have hdraw : (K, b.count) ∈ texRender true (texPrep s es).1 := by
      simp only [texRender, if_pos]
      exact List.mem_map.2 ⟨(K, b), hmem2, rfl⟩
    rwa [show b.count = (es.filter (fun e => decide (e.1 = K))).length from hlen] at hdraw

/-! ### Nested-pair lemmas for the model batcher -/

theorem mem_keyPairs {γ : Type} {l : List (Nat × List (Nat × γ))} {a b : Nat} :
    (a, b) ∈ keyPairs l ↔ ∃ inner, (a, inner) ∈ l ∧ b ∈ inner.map (·.1) := by
  constructor
  · intro h
    obtain ⟨⟨m, inner⟩, hm, hmem⟩ := List.mem_flatMap.1 h
    obtain ⟨⟨t, bf⟩, ht, he⟩ := List.mem_map.1 hmem
    have h1 := congrArg Prod.fst he
    have h2 := congrArg Prod.snd he
    simp only at h1 h2
    exact ⟨inner, h1 ▸ hm, List.mem_map.2 ⟨(t, bf), ht, h2⟩⟩
  · rintro ⟨inner, hm, hb⟩
    obtain ⟨⟨t, bf⟩, ht, he⟩ := List.mem_map.1 hb
    cases he
    exact List.mem_flatMap.2 ⟨(a, inner), hm, List.mem_map.2 ⟨(t, bf), ht, rfl⟩⟩

theorem keyPairs_append {γ : Type} (l1 l2 : List (Nat × List (Nat × γ))) :
    keyPairs (l1 ++ l2) = keyPairs l1 ++ keyPairs l2 := by
  simp [keyPairs]

theorem keyPairs_intro {γ : Type} {l : List (Nat × List (Nat × γ))} {m b : Nat}
    {inner : List (Nat × γ)} (hm : (m, inner) ∈ l) (hb : b ∈ inner.map (·.1)) :
    (m, b) ∈ keyPairs l :=
  mem_keyPairs.2 ⟨inner, hm, hb⟩

theorem keyPairs_mem_cons {γ : Type} {x : Nat × List (Nat × γ)}
    {rest : List (Nat × List (Nat × γ))} {p : Nat × Nat}
    (h : p ∈ keyPairs rest) : p ∈ keyPairs (x :: rest) := by
  obtain ⟨a, b⟩ := p
  obtain ⟨inner, hm, hb⟩ := mem_keyPairs.1 h
  exact keyPairs_intro (List.mem_cons_of_mem _ hm) hb

theorem keyPairs_setG_sub {γ : Type} {l : List (Nat × List (Nat × γ))} {m a b : Nat}
    {new : List (Nat × γ)} (h : (a, b) ∈ keyPairs (setG l m new)) :
    (a, b) ∈ keyPairs l ∨ (a = m ∧ b ∈ new.map (·.1)) := by
  obtain ⟨inner, hm, hb⟩ := mem_keyPairs.1 h
  simp only [setG, List.mem_map] at hm
  obtain ⟨⟨k, v⟩, hkv, he⟩ := hm
  by_cases hk : k = m
  · simp only [hk, if_pos] at he
    obtain ⟨h1, h2⟩ := Prod.mk.injEq _ _ _ _ ▸ he
    cases h1
    cases h2
    exact Or.inr ⟨hk.symm ▸ rfl, hb⟩
  · rw [if_neg hk] at he
    obtain ⟨h1, h2⟩ := Prod.mk.injEq _ _ _ _ ▸ he.symm
    cases h1
    cases h2
    exact Or.inl (keyPairs_intro hkv hb)

/-- With `Nodup` outer keys, `setG` replaces exactly the looked-up
entry, so pair membership after the write is the old membership away
from `m` plus the new inner keys under `m`. -/
theorem keyPairs_setG_iff {γ : Type} {l : List (Nat × List (Nat × γ))} {m a b : Nat}
    {inner new : List (Nat × γ)} (nd : (l.map (·.1)).Nodup)
    (hl : lookupE m l = some inner) :
    ((a, b) ∈ keyPairs (setG l m new) ↔
      ((a, b) ∈ keyPairs l ∧ a ≠ m) ∨ (a = m ∧ b ∈ new.map (·.1))) := by
  constructor
  · intro h
    rcases keyPairs_setG_sub h with h1 | h1
    · by_cases ham : a = m
      · subst ham
        obtain ⟨inner2, hm2, hb2⟩ := mem_keyPairs.1 h
        simp only [setG, List.mem_map] at hm2
        obtain ⟨⟨k, v⟩, hkv, he⟩ := hm2
        by_cases hk : k = a
        · simp only [hk, if_pos] at he
          obtain ⟨h2, h3⟩ := Prod.mk.injEq _ _ _ _ ▸ he
          cases h2
          cases h3
          exact Or.inr ⟨rfl, hb2⟩
        · rw [if_neg hk] at he
          obtain ⟨h2, h3⟩ := Prod.mk.injEq _ _ _ _ ▸ he.symm
          cases h2
          exact absurd rfl hk
      · exact Or.inl ⟨h1, ham⟩
    · exact Or.inr h1
  · rintro (⟨h1, h2⟩ | ⟨h1, h2⟩)
    · obtain ⟨inner2, hm2, hb2⟩ := mem_keyPairs.1 h1
      refine keyPairs_intro ?_ hb2
      simp only [setG, List.mem_map]
      refine ⟨(a, inner2), hm2, ?_⟩
      rw [if_neg (by simpa using h2)]
    · subst h1
      refine keyPairs_intro ?_ h2
      simp only [setG, List.mem_map]
      refine ⟨(a, inner), lookupE_mem hl, ?_⟩
      simp

/-- With `Nodup` outer keys, pairs under `m` are exactly the inner keys
of the looked-up entry. -/
theorem keyPairs_lookup_iff {γ : Type} {l : List (Nat × List (Nat × γ))} {m b : Nat}
    {inner : List (Nat × γ)} (nd : (l.map (·.1)).Nodup)
    (hl : lookupE m l = some inner) :
    ((m, b) ∈ keyPairs l ↔ b ∈ inner.map (·.1)) := by
  constructor
  · intro h
    obtain ⟨inner2, hm2, hb2⟩ := mem_keyPairs.1 h
    have : lookupE m l = some inner2 := lookupE_of_mem_nodup nd hm2
    rw [hl] at this
    cases this
    exact hb2
  · intro h
    exact keyPairs_intro (lookupE_mem hl) h

theorem keys_applyAccInner_sub {κ : Type} {t : Nat} :
    ∀ (ts : List (Nat × List κ)) (ins : List (Nat × IBuf κ)),
      t ∈ (applyAccInner ins ts).map (·.1) →
      t ∈ ins.map (·.1) ∨ t ∈ ts.map (·.1) := by
  intro ts
  induction ts with
  | nil => intro ins h; exact Or.inl h
  | cons p rest ih =>
    intro ins h
    obtain ⟨t', raw⟩ := p
    cases hl : lookupE t' ins with
    | some b =>
      simp only [applyAccInner, hl] at h
      rcases ih _ h with h1 | h1
      · rw [keys_setG] at h1
        exact Or.inl h1
      · exact Or.inr (by simp [h1])
    | none =>
      simp only [applyAccInner, hl] at h
      rcases ih _ h with h1 | h1
      · simp only [List.map_append, List.mem_append] at h1
        rcases h1 with h1 | h1
        · exact Or.inl h1
        · simp only [List.map_cons, List.map_nil, List.mem_singleton] at h1
          exact Or.inr (by simp [h1])
      · exact Or.inr (by simp [h1])

/-- The reconciliation loop only ever adds composite keys present in
the accumulation. -/
theorem keyPairs_applyAccM_sub {κ : Type} {a b : Nat} :
    ∀ (acc : List (Nat × List (Nat × List κ))) (ins : List (Nat × List (Nat × IBuf κ))),
      (a, b) ∈ keyPairs (applyAccM ins acc) →
      (a, b) ∈ keyPairs ins ∨ (a, b) ∈ keyPairs acc := by
  intro acc
  induction acc with
  | nil => intro ins h; exact Or.inl h
  | cons p rest ih =>
    intro ins h
    obtain ⟨m', texmap⟩ := p
    cases hl : lookupE m' ins with
    | some inner =>
      simp only [applyAccM, hl] at h
      rcases ih _ h with h1 | h1
      · rcases keyPairs_setG_sub h1 with h2 | ⟨h2, h3⟩
        · exact Or.inl h2
        · rcases keys_applyAccInner_sub texmap inner h3 with h4 | h4
          · exact Or.inl (h2 ▸ keyPairs_intro (lookupE_mem hl) h4)
          · exact Or.inr (h2 ▸ keyPairs_intro (List.mem_cons_self _ _) h4)
      · exact Or.inr (keyPairs_mem_cons h1)
    | none =>
      simp only [applyAccM, hl] at h
      rcases ih _ h with h1 | h1
      · rw [keyPairs_append] at h1
        rcases List.mem_append.1 h1 with h2 | h2
        · exact Or.inl h2
        · obtain ⟨inner2, hm2, hb2⟩ := mem_keyPairs.1 h2
          simp only [List.mem_singleton] at hm2
          have h3 : a = m' := by
            have := congrArg Prod.fst hm2
            simpa using this
          have h4 : inner2 = applyAccInner [] texmap := by
            have := congrArg Prod.snd hm2
            simpa using this
          rw [h4] at hb2
          rcases keys_applyAccInner_sub texmap [] hb2 with h5 | h5
          · cases h5
          · exact Or.inr (h3 ▸ keyPairs_intro (List.mem_cons_self _ _) h5)
      · exact Or.inr (keyPairs_mem_cons h1)

theorem lookupE_removeDead {κ : Type} {m : Nat} {dead : List (Nat × Nat)} :
    ∀ (ins : List (Nat × List (Nat × IBuf κ))),
      lookupE m (removeDead ins dead) =
        (lookupE m ins).map
          (fun inner => inner.filter (fun ti => decide (¬ (m, ti.1) ∈ dead))) := by
  intro ins
  induction ins with
  | nil => rfl
  | cons p rest ih =>
    obtain ⟨k, v⟩ := p
    show (if k = m then some (v.filter (fun ti => decide (¬ (k, ti.1) ∈ dead)))
        else lookupE m (removeDead rest dead)) = _
    by_cases hk : k = m
    · rw [if_pos hk]
      show some (v.filter (fun ti => decide (¬ (k, ti.1) ∈ dead))) =
        (if k = m then some v else lookupE m rest).map
          (fun inner => inner.filter (fun ti => decide (¬ (m, ti.1) ∈ dead)))
      rw [if_pos hk, hk]
      rfl
    · rw [if_neg hk]
      show _ = (if k = m then some v else lookupE m rest).map
          (fun inner => inner.filter (fun ti => decide (¬ (m, ti.1) ∈ dead)))
      rw [if_neg hk]
      exact ih

theorem lookupE_filter_dead {κ : Type} {m t : Nat} {dead : List (Nat × Nat)}
    {l : List (Nat × IBuf κ)} (h : (m, t) ∈ dead) :
    lookupE t (l.filter (fun ti => decide (¬ (m, ti.1) ∈ dead))) = none := by
  induction l with
  | nil => rfl
  | cons p rest ih =>
    obtain ⟨k, v⟩ := p
    rw [List.filter_cons]
    by_cases hk : k = t
    · subst hk
      rw [if_neg (by simpa using h)]
      exact ih
    · by_cases hd : (m, k) ∈ dead
      · rw [if_neg (by simpa using hd)]
        exact ih
      · rw [if_pos (by simpa using hd)]
        show (if k = t then some v else _) = none
        rw [if_neg hk]
        exact ih

/-! ### Entity-scan lemmas (`ModelRenderer::prep` step 2) -/

theorem accAdd2_none {κ : Type} {st : MScan κ} {m t : Nat} {v : κ}
    (hl : lookupE m st.acc = none) :
    accAdd2 st m t v =
      { acc := st.acc ++ [(m, [(t, [v])])],
        meshes_used := st.meshes_used ++ [m],
        textures_used := st.textures_used ++ [t],
        mesh_storage :=
          if m ∈ st.mesh_storage then st.mesh_storage else st.mesh_storage ++ [m],
        texture_storage :=
          if t ∈ st.texture_storage then st.texture_storage else st.texture_storage ++ [t] } := by
  simp [accAdd2, hl]

theorem accAdd2_some_none {κ : Type} {st : MScan κ} {m t : Nat} {v : κ}
    {inner : List (Nat × List κ)} (hl : lookupE m st.acc = some inner)
    (hlt : lookupE t inner = none) :
    accAdd2 st m t v =
      { st with
        acc := setG st.acc m (inner ++ [(t, [v])]),
        textures_used := st.textures_used ++ [t],
        texture_storage :=
          if t ∈ st.texture_storage then st.texture_storage else st.texture_storage ++ [t] } := by
  simp [accAdd2, hl, hlt]

theorem accAdd2_some_some {κ : Type} {st : MScan κ} {m t : Nat} {v : κ}
    {inner : List (Nat × List κ)} {l : List κ} (hl : lookupE m st.acc = some inner)
    (hlt : lookupE t inner = some l) :
    accAdd2 st m t v = { st with acc := setG st.acc m (setG inner t (l ++ [v])) } := by
  simp [accAdd2, hl, hlt]

theorem scan_meshes_used {κ : Type} {m1 : Nat} :
    ∀ (ps : List (Nat × Nat × κ)) (st : MScan κ),
      (∀ m0 ∈ st.acc.map (·.1), m0 ∈ st.meshes_used) →
      ((m1 ∈ (ps.foldl (fun s p => accAdd2 s p.1 p.2.1 p.2.2) st).meshes_used) ↔
        m1 ∈ st.meshes_used ∨ m1 ∈ ps.map (·.1)) := by
  intro ps
  induction ps with
  | nil => intro st _; simp
  | cons p rest ih =>
    intro st hinv
    obtain ⟨m, t, v⟩ := p
    simp only [List.foldl_cons, List.map_cons, List.mem_cons]
    cases hl : lookupE m st.acc with
    | none =>
      rw [accAdd2_none hl]
      rw [ih _ (by
        intro m0 hm0
        simp only [List.map_append, List.mem_append, List.map_cons, List.map_nil,
          List.mem_singleton] at hm0
        rcases hm0 with hm0 | hm0
        · exact List.mem_append_left _ (hinv m0 hm0)
        · exact List.mem_append_right _ (by simp [hm0]))]
      simp only [List.mem_append, List.mem_singleton]
      tauto
    | some inner =>
      have hmem : m ∈ st.meshes_used :=
        hinv m (lookupE_isSome.1 (by rw [hl]; rfl))
      cases hlt : lookupE t inner with
      | none =>
        rw [accAdd2_some_none hl hlt]
        rw [ih _ (by
          intro m0 hm0
          rw [keys_setG] at hm0
          exact hinv m0 hm0)]
        constructor
        · rintro (h | h)
          · exact Or.inl h
          · exact Or.inr (Or.inr h)
        · rintro (h | h | h)
          · exact Or.inl h
          · exact Or.inl (h ▸ hmem)
          · exact Or.inr h
      | some l =>
        rw [accAdd2_some_some hl hlt]
        rw [ih _ (by
          intro m0 hm0
          rw [keys_setG] at hm0
          exact hinv m0 hm0)]
        constructor
        · rintro (h | h)
          · exact Or.inl h
          · exact Or.inr (Or.inr h)
        · rintro (h | h | h)
          · exact Or.inl h
          · exact Or.inl (h ▸ hmem)
          · exact Or.inr h

theorem scan_mesh_storage {κ : Type} {m1 : Nat} :
    ∀ (ps : List (Nat × Nat × κ)) (st : MScan κ),
      (∀ m0 ∈ st.acc.map (·.1), m0 ∈ st.mesh_storage) →
      ((m1 ∈ (ps.foldl (fun s p => accAdd2 s p.1 p.2.1 p.2.2) st).mesh_storage) ↔
        m1 ∈ st.mesh_storage ∨ m1 ∈ ps.map (·.1)) := by
  intro ps
  induction ps with
  | nil => intro st _; simp
  | cons p rest ih =>
    intro st hinv
    obtain ⟨m, t, v⟩ := p
    simp only [List.foldl_cons, List.map_cons, List.mem_cons]
    cases hl : lookupE m st.acc with
    | none =>
      rw [accAdd2_none hl]
      rw [ih _ (by
        intro m0 hm0
        simp only [List.map_append, List.mem_append, List.map_cons, List.map_nil,
          List.mem_singleton] at hm0
        rcases hm0 with hm0 | hm0
        · by_cases hms : m ∈ st.mesh_storage
          · rw [if_pos hms]
            exact hinv m0 hm0
          · rw [if_neg hms]
            exact List.mem_append_left _ (hinv m0 hm0)
        · by_cases hms : m ∈ st.mesh_storage
          · rw [if_pos hms]
            exact hm0 ▸ hms
          · rw [if_neg hms]
            exact List.mem_append_right _ (by simp [hm0]))]
      by_cases hms : m ∈ st.mesh_storage
      · rw [if_pos hms]
        constructor
        · rintro (h | h)
          · exact Or.inl h
          · exact Or.inr (Or.inr h)
        · rintro (h | h | h)
          · exact Or.inl h
          · exact Or.inl (h ▸ hms)
          · exact Or.inr h
      · rw [if_neg hms]
        simp only [List.mem_append, List.mem_singleton]
        tauto
    | some inner =>
      have hmem : m ∈ st.mesh_storage :=
        hinv m (lookupE_isSome.1 (by rw [hl]; rfl))
      cases hlt : lookupE t inner with
      | none =>
        rw [accAdd2_some_none hl hlt]
        rw [ih _ (by
          intro m0 hm0
          rw [keys_setG] at hm0
          exact hinv m0 hm0)]
        constructor
        · rintro (h | h)
          · exact Or.inl h
          · exact Or.inr (Or.inr h)
        · rintro (h | h | h)
          · exact Or.inl h
          · exact Or.inl (h ▸ hmem)
          · exact Or.inr h
      | some l =>
        rw [accAdd2_some_some hl hlt]
        rw [ih _ (by
          intro m0 hm0
          rw [keys_setG] at hm0
          exact hinv m0 hm0)]
        constructor
        · rintro (h | h)
          · exact Or.inl h
          · exact Or.inr (Or.inr h)
        · rintro (h | h | h)
          · exact Or.inl h
          · exact Or.inl (h ▸ hmem)
          · exact Or.inr h

theorem scan_textures_used {κ : Type} {t1 : Nat} :
    ∀ (ps : List (Nat × Nat × κ)) (st : MScan κ),
      (∀ p ∈ keyPairs st.acc, p.2 ∈ st.textures_used) →
      ((t1 ∈ (ps.foldl (fun s p => accAdd2 s p.1 p.2.1 p.2.2) st).textures_used) ↔
        t1 ∈ st.textures_used ∨ t1 ∈ ps.map (·.2.1)) := by
  intro ps
  induction ps with
  | nil => intro st _; simp
  | cons p rest ih =>
    intro st hinv
    obtain ⟨m, t, v⟩ := p
    simp only [List.foldl_cons, List.map_cons, List.mem_cons]
    cases hl : lookupE m st.acc with
    | none =>
      rw [accAdd2_none hl]
      rw [ih _ (by
        intro q hq
        rw [keyPairs_append] at hq
        rcases List.mem_append.1 hq with hq | hq
        · exact List.mem_append_left _ (hinv q hq)
        · obtain ⟨a, b⟩ := q
          obtain ⟨inner, hm, hb⟩ := mem_keyPairs.1 hq
          simp only [List.mem_singleton, Prod.mk.injEq] at hm
          have hb' : b = t := by
            rw [hm.2] at hb
            simpa using hb
          exact List.mem_append_right _ (by simp [hb']))]
      simp only [List.mem_append, List.mem_singleton]
      tauto
    | some inner =>
      have hmacc : (m, inner) ∈ st.acc := lookupE_mem hl
      cases hlt : lookupE t inner with
      | none =>
        rw [accAdd2_some_none hl hlt]
        rw [ih _ (by
          intro q hq
          rcases keyPairs_setG_sub hq with hq | hq
          · exact List.mem_append_left _ (hinv q hq)
          · obtain ⟨a, b⟩ := q
            obtain ⟨ha, hb⟩ := hq
            simp only [List.map_append, List.mem_append, List.map_cons, List.map_nil,
              List.mem_singleton] at hb
            rcases hb with hb | hb
            · exact List.mem_append_left _
                (hinv (a, b) (by have ha2 : a = m := ha; rw [ha2]; exact keyPairs_intro hmacc hb))
            · exact List.mem_append_right _ (by simp [hb]))]
        simp only [List.mem_append, List.mem_singleton]
        tauto
      | some l =>
        have htmem : t ∈ st.textures_used :=
          hinv (m, t) (keyPairs_intro hmacc (lookupE_isSome.1 (by rw [hlt]; rfl)))
        rw [accAdd2_some_some hl hlt]
        rw [ih _ (by
          intro q hq
          rcases keyPairs_setG_sub hq with hq | hq
          · exact hinv q hq
          · obtain ⟨a, b⟩ := q
            obtain ⟨ha, hb⟩ := hq
            rw [keys_setG] at hb
            exact hinv (a, b) (by have ha2 : a = m := ha; rw [ha2]; exact keyPairs_intro hmacc hb))]
        constructor
        · rintro (h | h)
          · exact Or.inl h
          · exact Or.inr (Or.inr h)
        · rintro (h | h | h)
          · exact Or.inl h
          · exact Or.inl (h ▸ htmem)
          · exact Or.inr h

theorem scan_texture_storage {κ : Type} {t1 : Nat} :
    ∀ (ps : List (Nat × Nat × κ)) (st : MScan κ),
      (∀ p ∈ keyPairs st.acc, p.2 ∈ st.texture_storage) →
      ((t1 ∈ (ps.foldl (fun s p => accAdd2 s p.1 p.2.1 p.2.2) st).texture_storage) ↔
        t1 ∈ st.texture_storage ∨ t1 ∈ ps.map (·.2.1)) := by
  intro ps
  induction ps with
  | nil => intro st _; simp
  | cons p rest ih =>
    intro st hinv
    obtain ⟨m, t, v⟩ := p
    simp only [List.foldl_cons, List.map_cons, List.mem_cons]
    cases hl : lookupE m st.acc with
    | none =>
      rw [accAdd2_none hl]
      rw [ih _ (by
        intro q hq
        rw [keyPairs_append] at hq
        rcases List.mem_append.1 hq with hq | hq
        · by_cases hts : t ∈ st.texture_storage
          · rw [if_pos hts]
            exact hinv q hq
          · rw [if_neg hts]
            exact List.mem_append_left _ (hinv q hq)
        · obtain ⟨a, b⟩ := q
          obtain ⟨inner, hm, hb⟩ := mem_keyPairs.1 hq
          simp only [List.mem_singleton, Prod.mk.injEq] at hm
          have hb' : b = t := by
            rw [hm.2] at hb
            simpa using hb
          by_cases hts : t ∈ st.texture_storage
          · rw [if_pos hts]
            exact hb' ▸ hts
          · rw [if_neg hts]
            exact List.mem_append_right _ (by simp [hb']))]
      by_cases hts : t ∈ st.texture_storage
      · rw [if_pos hts]
        constructor
        · rintro (h | h)
          · exact Or.inl h
          · exact Or.inr (Or.inr h)
        · rintro (h | h | h)
          · exact Or.inl h
          · exact Or.inl (h ▸ hts)
          · exact Or.inr h
      · rw [if_neg hts]
        simp only [List.mem_append, List.mem_singleton]
        tauto
    | some inner =>
      have hmacc : (m, inner) ∈ st.acc := lookupE_mem hl
      cases hlt : lookupE t inner with
      | none =>
        rw [accAdd2_some_none hl hlt]
        rw [ih _ (by
          intro q hq
          rcases keyPairs_setG_sub hq with hq | hq
          · by_cases hts : t ∈ st.texture_storage
            · rw [if_pos hts]
              exact hinv q hq
            · rw [if_neg hts]
              exact List.mem_append_left _ (hinv q hq)
          · obtain ⟨a, b⟩ := q
            obtain ⟨ha, hb⟩ := hq
            simp only [List.map_append, List.mem_append, List.map_cons, List.map_nil,
              List.mem_singleton] at hb
            rcases hb with hb | hb
            · by_cases hts : t ∈ st.texture_storage
              · rw [if_pos hts]
                exact hinv (a, b) (by have ha2 : a = m := ha; rw [ha2]; exact keyPairs_intro hmacc hb)
              · rw [if_neg hts]
                exact List.mem_append_left _
                  (hinv (a, b) (by have ha2 : a = m := ha; rw [ha2]; exact keyPairs_intro hmacc hb))
            · by_cases hts : t ∈ st.texture_storage
              · rw [if_pos hts]
                exact hb ▸ hts
              · rw [if_neg hts]
                exact List.mem_append_right _ (by simp [hb]))]
        by_cases hts : t ∈ st.texture_storage
        · rw [if_pos hts]
          constructor
          · rintro (h | h)
            · exact Or.inl h
            · exact Or.inr (Or.inr h)
          · rintro (h | h | h)
            · exact Or.inl h
            · exact Or.inl (h ▸ hts)
            · exact Or.inr h
        · rw [if_neg hts]
          simp only [List.mem_append, List.mem_singleton]
          tauto
      | some l =>
        have htmem : t ∈ st.texture_storage :=
          hinv (m, t) (keyPairs_intro hmacc (lookupE_isSome.1 (by rw [hlt]; rfl)))
        rw [accAdd2_some_some hl hlt]
        rw [ih _ (by
          intro q hq
          rcases keyPairs_setG_sub hq with hq | hq
          · exact hinv q hq
          · obtain ⟨a, b⟩ := q
            obtain ⟨ha, hb⟩ := hq
            rw [keys_setG] at hb
            exact hinv (a, b) (by have ha2 : a = m := ha; rw [ha2]; exact keyPairs_intro hmacc hb))]
        constructor
        · rintro (h | h)
          · exact Or.inl h
          · exact Or.inr (Or.inr h)
        · rintro (h | h | h)
          · exact Or.inl h
          · exact Or.inl (h ▸ htmem)
          · exact Or.inr h

theorem scan_accPairs {κ : Type} {q : Nat × Nat} :
    ∀ (ps : List (Nat × Nat × κ)) (st : MScan κ),
      q ∈ keyPairs (ps.foldl (fun s p => accAdd2 s p.1 p.2.1 p.2.2) st).acc →
      q ∈ keyPairs st.acc ∨ q ∈ ps.map (fun p => (p.1, p.2.1)) := by
  intro ps
  induction ps with
  | nil => intro st h; exact Or.inl h
  | cons p rest ih =>
    intro st h
    obtain ⟨m, t, v⟩ := p
    simp only [List.foldl_cons] at h
    simp only [List.map_cons, List.mem_cons]
    cases hl : lookupE m st.acc with
    | none =>
      rw [accAdd2_none hl] at h
      rcases ih _ h with h | h
      · rw [keyPairs_append] at h
        rcases List.mem_append.1 h with h | h
        · exact Or.inl h
        · obtain ⟨a, b⟩ := q
          obtain ⟨inner, hm, hb⟩ := mem_keyPairs.1 h
          simp only [List.mem_singleton, Prod.mk.injEq] at hm
          have hb' : b = t := by
            rw [hm.2] at hb
            simpa using hb
          exact Or.inr (Or.inl (by rw [hm.1, hb']))
      · exact Or.inr (Or.inr h)
    | some inner =>
      have hmacc : (m, inner) ∈ st.acc := lookupE_mem hl
      cases hlt : lookupE t inner with
      | none =>
        rw [accAdd2_some_none hl hlt] at h
        rcases ih _ h with h | h
        · rcases keyPairs_setG_sub h with h | h
          · exact Or.inl h
          · obtain ⟨a, b⟩ := q
            obtain ⟨ha, hb⟩ := h
            simp only [List.map_append, List.mem_append, List.map_cons, List.map_nil,
              List.mem_singleton] at hb
            rcases hb with hb | hb
            · exact Or.inl (by have ha2 : a = m := ha; rw [ha2]; exact keyPairs_intro hmacc hb)
            · exact Or.inr (Or.inl (by
                have ha2 : a = m := ha
                have hb2 : b = t := hb
                rw [ha2, hb2]))
        · exact Or.inr (Or.inr h)
      | some l =>
        rw [accAdd2_some_some hl hlt] at h
        rcases ih _ h with h | h
        · rcases keyPairs_setG_sub h with h | h
          · exact Or.inl h
          · obtain ⟨a, b⟩ := q
            obtain ⟨ha, hb⟩ := h
            rw [keys_setG] at hb
            exact Or.inl (by have ha2 : a = m := ha; rw [ha2]; exact keyPairs_intro hmacc hb)
        · exact Or.inr (Or.inr h)

theorem keyPairs_removeDead {κ : Type} {a b : Nat} {dead : List (Nat × Nat)}
    {ins : List (Nat × List (Nat × IBuf κ))} :
    (a, b) ∈ keyPairs (removeDead ins dead) ↔
      (a, b) ∈ keyPairs ins ∧ ¬ (a, b) ∈ dead := by
  constructor
  · intro h
    obtain ⟨inner2, hm, hb⟩ := mem_keyPairs.1 h
    simp only [removeDead, List.mem_map] at hm
    obtain ⟨mi, hmi, he⟩ := hm
    have h1 : mi.1 = a := congrArg Prod.fst he
    have h2 : mi.2.filter (fun ti => decide (¬ (mi.1, ti.1) ∈ dead)) = inner2 :=
      congrArg Prod.snd he
    obtain ⟨ti, hti, htib⟩ := List.mem_map.1 hb
    rw [← h2] at hti
    obtain ⟨hti1, hti2⟩ := List.mem_filter.1 hti
    have hdead : ¬ (a, b) ∈ dead := by
      have := of_decide_eq_true hti2
      rw [h1, htib] at this
      exact this
    refine ⟨?_, hdead⟩
    have hmi' : (a, mi.2) ∈ ins := by
      have : mi = (a, mi.2) := by
        ext
        · exact h1
        · rfl
      exact this ▸ hmi
    exact keyPairs_intro hmi' (htib ▸ List.mem_map_of_mem _ hti1)
  · rintro ⟨h, hdead⟩
    obtain ⟨inner, hm, hb⟩ := mem_keyPairs.1 h
    obtain ⟨ti, hti, htib⟩ := List.mem_map.1 hb
    have hmem : (a, inner.filter (fun q => decide (¬ (a, q.1) ∈ dead))) ∈
        removeDead ins dead := by
      simp only [removeDead, List.mem_map]
      exact ⟨(a, inner), hm, rfl⟩
    refine keyPairs_intro hmem ?_
    have htif : ti ∈ inner.filter (fun q => decide (¬ (a, q.1) ∈ dead)) :=
      List.mem_filter.2 ⟨hti, decide_eq_true (by rw [htib]; exact hdead)⟩
    exact htib ▸ List.mem_map_of_mem _ htif

/-- **C5 (refutation — code bug)** — the claim says every key present in the
live `instances` map of `ModelRenderer` keeps its mesh in `mesh_storage`, so
`render`'s `mesh_storage.get(mesh_id).unwrap()` can never hit its failure
branch.  It can: one frame registers a model entity using `(mesh 0, texture
0)`, the next frame has no model entities.  `prep`'s stale-pair removal
deletes the inner `(texture → buffer)` entry but keeps the now-empty outer
mesh entry, while the storage-retain step prunes mesh 0 from `mesh_storage`
(nothing used it this frame).  `render` then iterates the surviving
`instances` entry for mesh 0 and its `mesh_storage` lookup fails — modelled
here as `modelRender` returning `none` (the unwrap panic). -/
theorem claim_C5_render_panics :
    (modelPrep (modelPrep (⟨[], [], []⟩ : ModelSt Unit) [((), [(0, 0)])]) []).instances
        = [(0, [])] ∧
    (modelPrep (modelPrep (⟨[], [], []⟩ : ModelSt Unit) [((), [(0, 0)])]) []).mesh_storage
        = [] ∧
    modelRender true (modelPrep (modelPrep (⟨[], [], []⟩ : ModelSt Unit) [((), [(0, 0)])]) [])
        = none := by
  decide

/-- **C7** — after a `prep` cycle, a composite batch key `(mesh, texture)` not
referenced by any entity this frame holds no instance buffer in
`ModelRenderer`'s mapping; the shared mesh and texture storages are pruned to
exactly the identities used this frame; and in `TextureRenderer` a texture key
not referenced this frame has no entry in the instance map. -/
theorem claim_C7_eviction {κ : Type} (s : ModelSt κ) (es : List (κ × List (Nat × Nat)))
    (a b : Nat) (hK : ¬ (a, b) ∈ usedPairs es) (m t : Nat)
    (s2 : TexSt κ) (es2 : List (Nat × κ)) (K2 : Nat) (hK2 : ¬ K2 ∈ es2.map (·.1)) :
    ¬ (a, b) ∈ pairsOfInstances (modelPrep s es).instances ∧
    (m ∈ (modelPrep s es).mesh_storage ↔ m ∈ (pairsOf es).map (·.1)) ∧
    (t ∈ (modelPrep s es).texture_storage ↔ t ∈ (pairsOf es).map (·.2.1)) ∧
    ¬ K2 ∈ (texPrep s2 es2).1.instances.map (·.1) := by
  have haccK : ¬ (a, b) ∈ keyPairs (scanModels s (pairsOf es)).acc := by
    intro hacc
    rcases scan_accPairs (pairsOf es)
        (⟨[], [], [], s.mesh_storage, s.texture_storage⟩ : MScan κ)
        (by simpa [scanModels] using hacc) with h' | h'
    · simp [keyPairs] at h'
    · exact hK h'
  refine ⟨?_, ?_, ?_, ?_⟩
  · intro h
    simp only [modelPrep, pairsOfInstances] at h
    obtain ⟨h1, h2⟩ := keyPairs_removeDead.1 h
    rcases keyPairs_applyAccM_sub _ _ h1 with h' | h'
    · exact h2 (List.mem_filter.2 ⟨h', decide_eq_true haccK⟩)
    · exact haccK h'
  · have hmu : m ∈ (scanModels s (pairsOf es)).meshes_used ↔
        m ∈ (pairsOf es).map (·.1) := by
      have := @scan_meshes_used κ m (pairsOf es)
        (⟨[], [], [], s.mesh_storage, s.texture_storage⟩ : MScan κ)
        (by intro m0 hm0; simp at hm0)
      simpa [scanModels] using this
    have hms : m ∈ (scanModels s (pairsOf es)).mesh_storage ↔
        m ∈ s.mesh_storage ∨ m ∈ (pairsOf es).map (·.1) := by
      have := @scan_mesh_storage κ m (pairsOf es)
        (⟨[], [], [], s.mesh_storage, s.texture_storage⟩ : MScan κ)
        (by intro m0 hm0; simp at hm0)
      simpa [scanModels] using this
    simp only [modelPrep]
    rw [List.mem_filter]
    constructor
    · rintro ⟨h1, h2⟩
      exact hmu.1 (of_decide_eq_true h2)
    · intro h
      exact ⟨hms.2 (Or.inr h), decide_eq_true (hmu.2 h)⟩
  · have htu : t ∈ (scanModels s (pairsOf es)).textures_used ↔
        t ∈ (pairsOf es).map (·.2.1) := by
      have := @scan_textures_used κ t (pairsOf es)
        (⟨[], [], [], s.mesh_storage, s.texture_storage⟩ : MScan κ)
        (by intro p hp; simp [keyPairs] at hp)
      simpa [scanModels] using this
    have hts : t ∈ (scanModels s (pairsOf es)).texture_storage ↔
        t ∈ s.texture_storage ∨ t ∈ (pairsOf es).map (·.2.1) := by
      have := @scan_texture_storage κ t (pairsOf es)
        (⟨[], [], [], s.mesh_storage, s.texture_storage⟩ : MScan κ)
        (by intro p hp; simp [keyPairs] at hp)
      simpa [scanModels] using this
    simp only [modelPrep]
    rw [List.mem_filter]
    constructor
    · rintro ⟨h1, h2⟩
      exact htu.1 (of_decide_eq_true h2)
    · intro h
      exact ⟨hts.2 (Or.inr h), decide_eq_true (htu.2 h)⟩
  · intro h
    exact hK2 (mem_keys_accOf.1 (texPrep_keys.1 h))

theorem claim_C7_witness :
    (¬ ((5, 5) : Nat × Nat) ∈ usedPairs ([] : List (Unit × List (Nat × Nat)))) ∧
    (¬ (3 : Nat) ∈ ([] : List (Nat × Unit)).map (·.1)) ∧
    (¬ ((5, 5) : Nat × Nat) ∈ pairsOfInstances
        (modelPrep (⟨[5], [5], [(5, [(5, IBuf.new [()])])]⟩ : ModelSt Unit) []).instances ∧
      ((5 : Nat) ∈
          (modelPrep (⟨[5], [5], [(5, [(5, IBuf.new [()])])]⟩ : ModelSt Unit) []).mesh_storage ↔
        (5 : Nat) ∈ (pairsOf ([] : List (Unit × List (Nat × Nat)))).map (·.1)) ∧
      ((5 : Nat) ∈
          (modelPrep (⟨[5], [5], [(5, [(5, IBuf.new [()])])]⟩ : ModelSt Unit) []).texture_storage ↔
        (5 : Nat) ∈ (pairsOf ([] : List (Unit × List (Nat × Nat)))).map (·.2.1)) ∧
      ¬ (3 : Nat) ∈ (texPrep (⟨[(3, IBuf.new [()])]⟩ : TexSt Unit) []).1.instances.map (·.1)) :=
  ⟨by decide, by decide,
    claim_C7_eviction ⟨[5], [5], [(5, [(5, IBuf.new [()])])]⟩ [] 5 5 (by decide) 5 5
      ⟨[(3, IBuf.new [()])]⟩ [] 3 (by decide)⟩

theorem claim_C8_witness :
    ((([(7, 10), (7, 20), (8, 30)] : List (Nat × Nat)).filter
        (fun e => decide (e.1 = 7))).length ≠ 0) ∧
    (∃ b, lookupE 7 (texPrep (⟨[]⟩ : TexSt Nat) [(7, 10), (7, 20), (8, 30)]).1.instances
        = some b ∧
      b.data.length = (([(7, 10), (7, 20), (8, 30)] : List (Nat × Nat)).filter
        (fun e => decide (e.1 = 7))).length ∧
      b.count = (([(7, 10), (7, 20), (8, 30)] : List (Nat × Nat)).filter
        (fun e => decide (e.1 = 7))).length ∧
      (7, (([(7, 10), (7, 20), (8, 30)] : List (Nat × Nat)).filter
        (fun e => decide (e.1 = 7))).length) ∈
          texRender true (texPrep (⟨[]⟩ : TexSt Nat) [(7, 10), (7, 20), (8, 30)]).1) :=
  ⟨by decide, claim_C8_draw_count ⟨[]⟩ [(7, 10), (7, 20), (8, 30)] 7 (by decide)⟩

/-! ## Frame orchestration (`engine/src/lib.rs` `OuterState::tick` and
`renderer/src/lib.rs` `RendererState::tick`)

The per-frame control flow is straight-line code; it is embedded as the
list of observable events one `tick` emits, in program order.  A
pipeline is identified by its registration index, paired with its
priority. -/

/-- The observable events of one frame, in program order. -/
inductive Ev where
  | timeTick
  | appUpdate
  | spatialFlat
  | spatialHier
  | camSyncPersp
  | camSyncOrtho
  | prepP (id : Nat)
  | acquire
  | beginPass
  | renderP (id : Nat)
  | endPass
  | submit
  | present
  | resetInput
  | resetMouse
deriving DecidableEq, Repr

def isSpatial : Ev → Bool
  | Ev.spatialFlat => true
  | Ev.spatialHier => true
  | _ => false

def isCamSync : Ev → Bool
  | Ev.camSyncPersp => true
  | Ev.camSyncOrtho => true
  | _ => false

def isPrepEv : Ev → Bool
  | Ev.prepP _ => true
  | _ => false

def isRenderEv : Ev → Bool
  | Ev.renderP _ => true
  | _ => false

/-- The draw-submission phase of a frame: everything from opening the
render pass to presenting. -/
def isDrawPhase : Ev → Bool
  | Ev.beginPass => true
  | Ev.renderP _ => true
  | Ev.endPass => true
  | Ev.submit => true
  | Ev.present => true
  | _ => false

/-- `RendererState::add_pipeline`: push the new `(id, priority)` record,
then stable-sort by priority (`sort_by_key`).  The pipeline list is
sorted at every call, so the stable sort of the pushed list moves the
new record left past exactly the strictly-greater priorities — i.e. it
inserts it after every record of priority `≤` its own. -/
def sortPush : List (Nat × Nat) → Nat × Nat → List (Nat × Nat)
  | [], x => [x]
  | y :: rest, x => if y.2 ≤ x.2 then y :: sortPush rest x else x :: y :: rest

/-- Registering a sequence of pipelines, one `add_pipeline` call each. -/
def registerAll (regs : List (Nat × Nat)) : List (Nat × Nat) :=
  regs.foldl sortPush []

/-- `RendererState::tick`: camera uniform syncs, every pipeline's `prep`
in list order, surface acquisition, then — only if the surface was
obtained — the render pass with every pipeline's `render` in the same
list order, submission and presentation.  On acquisition failure the
function returns right after the attempt. -/
def rendererTickTrace (ps : List (Nat × Nat)) (ok : Bool) : List Ev :=
  [Ev.camSyncPersp, Ev.camSyncOrtho] ++ ps.map (fun p => Ev.prepP p.1) ++
    [Ev.acquire] ++
    (if ok then
      [Ev.beginPass] ++ ps.map (fun p => Ev.renderP p.1) ++
        [Ev.endPass, Ev.submit, Ev.present]
    else [])

/-- `OuterState::tick`: time update, app update, the two spatial
passes, the renderer tick, then the input resets. -/
def outerTickTrace (ps : List (Nat × Nat)) (ok : Bool) : List Ev :=
  [Ev.timeTick, Ev.appUpdate, Ev.spatialFlat, Ev.spatialHier] ++
    rendererTickTrace ps ok ++ [Ev.resetInput, Ev.resetInput, Ev.resetMouse]

/-- The pipelines' internal states across one renderer tick, with the
per-pipeline effects of `prep` and `render` abstract: every `prep` runs
in list order; the `render`s run only when the surface was acquired. -/
def rendererTickState {σ : Type} (prepF renderF : Nat × Nat → σ → σ) (ok : Bool)
    (ps : List (Nat × Nat)) (s : σ) : σ :=
  let s1 := ps.foldl (fun acc p => prepF p acc) s
  if ok then ps.foldl (fun acc p => renderF p acc) s1 else s1

/-! ### Ordering support lemmas -/

theorem mem_sortPush {x z : Nat × Nat} :
    ∀ {l : List (Nat × Nat)}, z ∈ sortPush l x ↔ z ∈ l ∨ z = x := by
  intro l
  induction l with
  | nil => simp [sortPush]
  | cons y rest ih =>
    show z ∈ (if y.2 ≤ x.2 then y :: sortPush rest x else x :: y :: rest) ↔ _
    by_cases hy : y.2 ≤ x.2
    · rw [if_pos hy]
      simp only [List.mem_cons, ih]
      tauto
    · rw [if_neg hy]
      simp only [List.mem_cons]
      tauto

theorem sortPush_pairwise {x : Nat × Nat} {l : List (Nat × Nat)}
    (hl : l.Pairwise (fun a b => a.2 < b.2 ∨ (a.2 = b.2 ∧ a.1 < b.1)))
    (hx : ∀ y ∈ l, y.1 < x.1) :
    (sortPush l x).Pairwise (fun a b => a.2 < b.2 ∨ (a.2 = b.2 ∧ a.1 < b.1)) := by
  induction l with
  | nil => simp [sortPush]
  | cons y rest ih =>
    rw [List.pairwise_cons] at hl
    obtain ⟨hy, hrest⟩ := hl
    show ((if y.2 ≤ x.2 then y :: sortPush rest x else x :: y :: rest)).Pairwise _
    by_cases hyx : y.2 ≤ x.2
    · rw [if_pos hyx]
      rw [List.pairwise_cons]
      refine ⟨?_, ih hrest (fun z hz => hx z (List.mem_cons_of_mem _ hz))⟩
      intro z hz
      rcases mem_sortPush.1 hz with hz | hz
      · exact hy z hz
      · subst hz
        rcases Nat.lt_or_ge y.2 z.2 with h | h
        · exact Or.inl h
        · exact Or.inr ⟨Nat.le_antisymm hyx h, hx y (List.mem_cons_self _ _)⟩
    · rw [if_neg hyx]
      rw [List.pairwise_cons]
      refine ⟨?_, List.pairwise_cons.2 ⟨hy, hrest⟩⟩
      intro z hz
      rcases List.mem_cons.1 hz with hz | hz
      · subst hz
        exact Or.inl (Nat.lt_of_not_le hyx)
      · have := hy z hz
        rcases this with h | h
        · exact Or.inl (Nat.lt_trans (Nat.lt_of_not_le hyx) h)
        · exact Or.inl (h.1 ▸ Nat.lt_of_not_le hyx)

theorem registerAll_go {regs : List (Nat × Nat)} :
    ∀ (acc : List (Nat × Nat)),
      acc.Pairwise (fun a b => a.2 < b.2 ∨ (a.2 = b.2 ∧ a.1 < b.1)) →
      (∀ y ∈ acc, ∀ x ∈ regs, y.1 < x.1) →
      regs.Pairwise (fun a b => a.1 < b.1) →
      (regs.foldl sortPush acc).Pairwise
        (fun a b => a.2 < b.2 ∨ (a.2 = b.2 ∧ a.1 < b.1)) := by
  induction regs with
  | nil => intro acc h _ _; exact h
  | cons x rest ih =>
    intro acc hacc hfrom hregs
    rw [List.pairwise_cons] at hregs
    obtain ⟨hx, hrest⟩ := hregs
    refine ih (sortPush acc x) ?_ ?_ hrest
    · exact sortPush_pairwise hacc
        (fun y hy => hfrom y hy x (List.mem_cons_self _ _))
    · intro y hy z hz
      rcases mem_sortPush.1 hy with hy | hy
      · exact hfrom y hy z (List.mem_cons_of_mem _ hz)
      · subst hy
        exact hx z hz

/-- The registered pipeline list is sorted by priority, registrations
with equal priority keeping registration order. -/
theorem registerAll_pairwise {regs : List (Nat × Nat)}
    (hregs : regs.Pairwise (fun a b => a.1 < b.1)) :
    (registerAll regs).Pairwise
      (fun a b => a.2 < b.2 ∨ (a.2 = b.2 ∧ a.1 < b.1)) :=
  registerAll_go [] (List.Pairwise.nil) (by intro y hy; cases hy) hregs

theorem append_index_lt {α : Type} (l1 l2 : List α) (p q : α → Bool)
    (h2 : ∀ x ∈ l2, p x = false) (h1 : ∀ x ∈ l1, q x = false) :
    ∀ (i j : Nat) (hi : i < (l1 ++ l2).length) (hj : j < (l1 ++ l2).length),
      p ((l1 ++ l2).get ⟨i, hi⟩) = true → q ((l1 ++ l2).get ⟨j, hj⟩) = true →
      i < j := by
  intro i j hi hj hp hq
  by_contra hlt
  push_neg at hlt
  have hi1 : i < l1.length := by
    by_contra hge
    push_neg at hge
    have hi2 : i - l1.length < l2.length := by
      rw [List.length_append] at hi
      omega
    have hmem : (l1 ++ l2).get ⟨i, hi⟩ ∈ l2 := by
      rw [List.get_eq_getElem, List.getElem_append_right hge]
      exact List.getElem_mem _
    rw [h2 _ hmem] at hp
    cases hp
  have hj1 : j < l1.length := Nat.lt_of_le_of_lt hlt hi1
  have hmem : (l1 ++ l2).get ⟨j, hj⟩ ∈ l1 := by
    rw [List.get_eq_getElem, List.getElem_append_left hj1]
    exact List.getElem_mem _
  rw [h1 _ hmem] at hq
  cases hq

theorem not_spatial_map_prep {ps : List (Nat × Nat)} :
    ∀ x ∈ ps.map (fun p => Ev.prepP p.1), isSpatial x = false := by
  intro x hx
  obtain ⟨p, _, rfl⟩ := List.mem_map.1 hx
  rfl

theorem not_spatial_map_render {ps : List (Nat × Nat)} :
    ∀ x ∈ ps.map (fun p => Ev.renderP p.1), isSpatial x = false := by
  intro x hx
  obtain ⟨p, _, rfl⟩ := List.mem_map.1 hx
  rfl

theorem not_cam_map_prep {ps : List (Nat × Nat)} :
    ∀ x ∈ ps.map (fun p => Ev.prepP p.1), isCamSync x = false := by
  intro x hx
  obtain ⟨p, _, rfl⟩ := List.mem_map.1 hx
  rfl

theorem not_cam_map_render {ps : List (Nat × Nat)} :
    ∀ x ∈ ps.map (fun p => Ev.renderP p.1), isCamSync x = false := by
  intro x hx
  obtain ⟨p, _, rfl⟩ := List.mem_map.1 hx
  rfl

theorem not_prep_map_render {ps : List (Nat × Nat)} :
    ∀ x ∈ ps.map (fun p => Ev.renderP p.1), isPrepEv x = false := by
  intro x hx
  obtain ⟨p, _, rfl⟩ := List.mem_map.1 hx
  rfl

theorem not_render_map_prep {ps : List (Nat × Nat)} :
    ∀ x ∈ ps.map (fun p => Ev.prepP p.1), isRenderEv x = false := by
  intro x hx
  obtain ⟨p, _, rfl⟩ := List.mem_map.1 hx
  rfl

theorem filter_prep_map_prep (ps : List (Nat × Nat)) :
    (ps.map (fun p => Ev.prepP p.1)).filter isPrepEv
      = ps.map (fun p => Ev.prepP p.1) := by
  induction ps with
  | nil => rfl
  | cons p rest ih => simp [isPrepEv, ih]

theorem filter_prep_map_render (ps : List (Nat × Nat)) :
    (ps.map (fun p => Ev.renderP p.1)).filter isPrepEv = [] := by
  induction ps with
  | nil => rfl
  | cons p rest ih => simp [isPrepEv, ih]

theorem filter_render_map_prep (ps : List (Nat × Nat)) :
    (ps.map (fun p => Ev.prepP p.1)).filter isRenderEv = [] := by
  induction ps with
  | nil => rfl
  | cons p rest ih => simp [isRenderEv, ih]

theorem filter_render_map_render (ps : List (Nat × Nat)) :
    (ps.map (fun p => Ev.renderP p.1)).filter isRenderEv
      = ps.map (fun p => Ev.renderP p.1) := by
  induction ps with
  | nil => rfl
  | cons p rest ih => simp [isRenderEv, ih]

theorem not_spatial_rtt {P : List (Nat × Nat)} {ok : Bool} :
    ∀ x ∈ rendererTickTrace P ok, isSpatial x = false := by
  simp only [rendererTickTrace]
  refine List.forall_mem_append.2 ⟨List.forall_mem_append.2
    ⟨List.forall_mem_append.2 ⟨by decide, not_spatial_map_prep⟩, by decide⟩, ?_⟩
  cases ok
  · intro x hx
    simp at hx
  · simp only [if_true]
    exact List.forall_mem_append.2 ⟨List.forall_mem_append.2
      ⟨by decide, not_spatial_map_render⟩, by decide⟩

theorem not_draw_map_prep {ps : List (Nat × Nat)} :
    ∀ x ∈ ps.map (fun p => Ev.prepP p.1), isDrawPhase x = false := by
  intro x hx
  obtain ⟨p, _, rfl⟩ := List.mem_map.1 hx
  rfl

/-- **C9** — within a frame: the registered pipeline list is sorted by
priority with registration order preserved on ties; the prep events are
exactly one per pipeline in that order; the render events are the same
sequence (when the surface was acquired, else none); both spatial
passes precede every prep; both camera syncs precede every prep; and
every prep precedes every render. -/
theorem claim_C9_frame_order (regs : List (Nat × Nat))
    (hregs : regs.Pairwise (fun a b => a.1 < b.1)) (ok : Bool) :
    (registerAll regs).Pairwise
        (fun a b => a.2 < b.2 ∨ (a.2 = b.2 ∧ a.1 < b.1)) ∧
    (outerTickTrace (registerAll regs) ok).filter isPrepEv
        = (registerAll regs).map (fun p => Ev.prepP p.1) ∧
    (outerTickTrace (registerAll regs) ok).filter isRenderEv
        = (if ok then (registerAll regs).map (fun p => Ev.renderP p.1) else []) ∧
    (∀ (i j : Nat) (hi : i < (outerTickTrace (registerAll regs) ok).length)
        (hj : j < (outerTickTrace (registerAll regs) ok).length),
      isSpatial ((outerTickTrace (registerAll regs) ok).get ⟨i, hi⟩) = true →
      isPrepEv ((outerTickTrace (registerAll regs) ok).get ⟨j, hj⟩) = true →
      i < j) ∧
    (∀ (i j : Nat) (hi : i < (outerTickTrace (registerAll regs) ok).length)
        (hj : j < (outerTickTrace (registerAll regs) ok).length),
      isCamSync ((outerTickTrace (registerAll regs) ok).get ⟨i, hi⟩) = true →
      isPrepEv ((outerTickTrace (registerAll regs) ok).get ⟨j, hj⟩) = true →
      i < j) ∧
    (∀ (i j : Nat) (hi : i < (outerTickTrace (registerAll regs) ok).length)
        (hj : j < (outerTickTrace (registerAll regs) ok).length),
      isPrepEv ((outerTickTrace (registerAll regs) ok).get ⟨i, hi⟩) = true →
      isRenderEv ((outerTickTrace (registerAll regs) ok).get ⟨j, hj⟩) = true →
      i < j) := by
  refine ⟨registerAll_pairwise hregs, ?_, ?_, ?_, ?_, ?_⟩
  · cases ok <;>
      simp [outerTickTrace, rendererTickTrace, List.filter_append,
        filter_prep_map_prep, filter_prep_map_render, isPrepEv]
  · cases ok <;>
      simp [outerTickTrace, rendererTickTrace, List.filter_append,
        filter_render_map_prep, filter_render_map_render, isRenderEv]
  · have heq : outerTickTrace (registerAll regs) ok =
        [Ev.timeTick, Ev.appUpdate, Ev.spatialFlat, Ev.spatialHier] ++
        (rendererTickTrace (registerAll regs) ok ++
          [Ev.resetInput, Ev.resetInput, Ev.resetMouse]) := by
      simp [outerTickTrace]
    rw [heq]
    exact append_index_lt _ _ isSpatial isPrepEv
      (List.forall_mem_append.2 ⟨not_spatial_rtt, by decide⟩)
      (by decide)
  · have heq : outerTickTrace (registerAll regs) ok =
        [Ev.timeTick, Ev.appUpdate, Ev.spatialFlat, Ev.spatialHier,
          Ev.camSyncPersp, Ev.camSyncOrtho] ++
        ((registerAll regs).map (fun p => Ev.prepP p.1) ++ ([Ev.acquire] ++
          ((if ok then
              [Ev.beginPass] ++ (registerAll regs).map (fun p => Ev.renderP p.1) ++
                [Ev.endPass, Ev.submit, Ev.present]
            else []) ++ [Ev.resetInput, Ev.resetInput, Ev.resetMouse]))) := by
      simp [outerTickTrace, rendererTickTrace]
    rw [heq]
    refine append_index_lt _ _ isCamSync isPrepEv ?_ (by decide)
    refine List.forall_mem_append.2 ⟨not_cam_map_prep,
      List.forall_mem_append.2 ⟨by decide, List.forall_mem_append.2 ⟨?_, by decide⟩⟩⟩
    cases ok
    · intro x hx
      simp at hx
    · simp only [if_true]
      exact List.forall_mem_append.2 ⟨List.forall_mem_append.2
        ⟨by decide, not_cam_map_render⟩, by decide⟩
  · have heq : outerTickTrace (registerAll regs) ok =
        ([Ev.timeTick, Ev.appUpdate, Ev.spatialFlat, Ev.spatialHier,
          Ev.camSyncPersp, Ev.camSyncOrtho] ++
          ((registerAll regs).map (fun p => Ev.prepP p.1) ++ [Ev.acquire])) ++
        ((if ok then
            [Ev.beginPass] ++ (registerAll regs).map (fun p => Ev.renderP p.1) ++
              [Ev.endPass, Ev.submit, Ev.present]
          else []) ++ [Ev.resetInput, Ev.resetInput, Ev.resetMouse]) := by
      simp [outerTickTrace, rendererTickTrace]
    rw [heq]
    refine append_index_lt _ _ isPrepEv isRenderEv ?_ ?_
    · refine List.forall_mem_append.2 ⟨?_, by decide⟩
      cases ok
      · intro x hx
        simp at hx
      · simp only [if_true]
        exact List.forall_mem_append.2 ⟨List.forall_mem_append.2
          ⟨by decide, not_prep_map_render⟩, by decide⟩
    · exact List.forall_mem_append.2 ⟨by decide,
        List.forall_mem_append.2 ⟨not_render_map_prep, by decide⟩⟩

theorem claim_C9_witness :
    ([(0, 5), (1, 3), (2, 5)] : List (Nat × Nat)).Pairwise (fun a b => a.1 < b.1) ∧
    ((registerAll [(0, 5), (1, 3), (2, 5)]).Pairwise
        (fun a b => a.2 < b.2 ∨ (a.2 = b.2 ∧ a.1 < b.1)) ∧
      (outerTickTrace (registerAll [(0, 5), (1, 3), (2, 5)]) true).filter isPrepEv
          = (registerAll [(0, 5), (1, 3), (2, 5)]).map (fun p => Ev.prepP p.1) ∧
      (outerTickTrace (registerAll [(0, 5), (1, 3), (2, 5)]) true).filter isRenderEv
          = (if true then
              (registerAll [(0, 5), (1, 3), (2, 5)]).map (fun p => Ev.renderP p.1)
            else []) ∧
      (∀ (i j : Nat)
          (hi : i < (outerTickTrace (registerAll [(0, 5), (1, 3), (2, 5)]) true).length)
          (hj : j < (outerTickTrace (registerAll [(0, 5), (1, 3), (2, 5)]) true).length),
        isSpatial ((outerTickTrace (registerAll [(0, 5), (1, 3), (2, 5)]) true).get
          ⟨i, hi⟩) = true →
        isPrepEv ((outerTickTrace (registerAll [(0, 5), (1, 3), (2, 5)]) true).get
          ⟨j, hj⟩) = true →
        i < j) ∧
      (∀ (i j : Nat)
          (hi : i < (outerTickTrace (registerAll [(0, 5), (1, 3), (2, 5)]) true).length)
          (hj : j < (outerTickTrace (registerAll [(0, 5), (1, 3), (2, 5)]) true).length),
        isCamSync ((outerTickTrace (registerAll [(0, 5), (1, 3), (2, 5)]) true).get
          ⟨i, hi⟩) = true →
        isPrepEv ((outerTickTrace (registerAll [(0, 5), (1, 3), (2, 5)]) true).get
          ⟨j, hj⟩) = true →
        i < j) ∧
      (∀ (i j : Nat)
          (hi : i < (outerTickTrace (registerAll [(0, 5), (1, 3), (2, 5)]) true).length)
          (hj : j < (outerTickTrace (registerAll [(0, 5), (1, 3), (2, 5)]) true).length),
        isPrepEv ((outerTickTrace (registerAll [(0, 5), (1, 3), (2, 5)]) true).get
          ⟨i, hi⟩) = true →
        isRenderEv ((outerTickTrace (registerAll [(0, 5), (1, 3), (2, 5)]) true).get
          ⟨j, hj⟩) = true →
        i < j)) :=
  ⟨by decide, claim_C9_frame_order [(0, 5), (1, 3), (2, 5)] (by decide) true⟩

/-- **C10** — when surface acquisition fails, the frame's draw
submission is skipped entirely: the renderer tick performs exactly the
camera syncs, the preps in order and the failed acquisition — no render
pass, no render calls, no submit, no present — and the pipelines' state
is exactly what the prep pass produced (`render` never runs, so prep
results are reused next frame). -/
theorem claim_C10_abort {σ : Type} (prepF renderF : Nat × Nat → σ → σ)
    (ps : List (Nat × Nat)) (s : σ) :
    rendererTickState prepF renderF false ps s
        = ps.foldl (fun acc p => prepF p acc) s ∧
    (∀ x ∈ rendererTickTrace ps false, isDrawPhase x = false) ∧
    rendererTickTrace ps false =
      [Ev.camSyncPersp, Ev.camSyncOrtho] ++ ps.map (fun p => Ev.prepP p.1)
        ++ [Ev.acquire] := by
  refine ⟨rfl, ?_, by simp [rendererTickTrace]⟩
  simp only [rendererTickTrace]
  refine List.forall_mem_append.2 ⟨List.forall_mem_append.2
    ⟨List.forall_mem_append.2 ⟨by decide, not_draw_map_prep⟩, by decide⟩, ?_⟩
  intro x hx
  simp at hx

end HecsVerify
